import Mathlib

/-
Verification of the KnowNet in-memory knowledge-graph engine.

The TypeScript sources are shallowly embedded:
  * Statement            (src/core/Statement.ts)
  * KnowledgeNetwork     (src/core/KnowledgeNetwork.ts)
  * DerivationEngine     (src/core/DerivationEngine.ts)
  * ContradictionDetector(src/services/ContradictionDetector.ts)
  * QueryService (confidence-range part, src/services/QueryService.ts)

Modelling conventions:
  * JS Map / Set are insertion-ordered, so they are embedded as lists kept in
    insertion order; Map.set on an existing key replaces in place, Map.delete
    removes the entry, Set.add appends when absent.
  * number is embedded as a rational; Date instants as natural numbers.
  * thrown exceptions are embedded by returning the post-state paired with
    an optional error; TS mutates objects in place, so a mutation performed
    before a throw is visible in the returned post-state, exactly as the
    surviving JS object graph would show it.
  * recursive procedures that terminate only because the traversed graph is
    finite are given an explicit fuel argument; the fuel chosen below is a
    proven or generous upper bound on the number of evaluation steps, so on
    every input appearing in a theorem the fuel never runs out and the
    function computes exactly what the TS code computes.
-/

namespace KnowNet

/-- The closed statement-kind enumeration from src/core/types.ts
(the TS string literal type has values axiom / theory / conclusion;
the first is spelled axm here). -/
inductive StatementType
  | axm
  | theory
  | conclusion
deriving DecidableEq

/-- The Statement entity (src/core/Statement.ts): identity, kind, content,
optional confidence, tags, timestamps and the ordered list of parent ids. -/
structure Statement where
  id : String
  type : StatementType
  content : String
  confidence : Option ℚ
  tags : List String
  createdAt : Nat
  updatedAt : Nat
  derivedFrom : List String
deriving DecidableEq

/-- The error taxonomy of the engine.  The TS code throws plain Error values;
each distinct throw site is mapped to one constructor. -/
inductive KNError
  | validationError (msg : String)
  | duplicateId (id : String)
  | danglingParent (id : String)
  | cycleError
  | notFound (id : String)
  | hasDependents (id : String)
deriving DecidableEq

/-- Rational multiplication in executable form (Rat.mul is irreducible for
kernel evaluation; this normalizing product is proven equal to * below). -/
def ratMul (a b : ℚ) : ℚ := mkRat (a.num * b.num) (a.den * b.den)

/-- Whitespace in the sense used by the sources (ASCII forms of the JS
regexp class the code applies to its ASCII contents). -/
def isSpaceChar (c : Char) : Bool :=
  c = ' ' || c = '\t' || c = '\n' || c = '\r'

/-- true when the optional confidence is present and outside [0, 1]. -/
def confOutOfRange (c : Option ℚ) : Bool :=
  match c with
  | none => false
  | some q => decide (q < 0) || decide (1 < q)

/-- Statement.validate: the four construction/update invariants, checked in
source order; returns the first violated rule.  content.trim().length === 0
holds exactly when every character is whitespace. -/
def Statement.validate (s : Statement) : Option KNError :=
  if s.content.data.all isSpaceChar then
    some (.validationError "Statement content cannot be empty")
  else if confOutOfRange s.confidence then
    some (.validationError "Confidence must be between 0 and 1")
  else if s.type = .axm ∧ s.derivedFrom ≠ [] then
    some (.validationError "Axioms cannot be derived from other statements")
  else if s.type = .theory ∧ s.derivedFrom = [] then
    some (.validationError "Theories must be derived from at least one statement")
  else
    none

/-- The partial-update record accepted by Statement.update
(Partial of the interface minus id and createdAt). -/
structure StatementUpdates where
  content : Option String := none
  confidence : Option ℚ := none
  tags : Option (List String) := none
  type : Option StatementType := none
  derivedFrom : Option (List String) := none

/-- The field application half of Statement.update: every provided field is
written onto the object and updatedAt is stamped, before any validation. -/
def Statement.applyUpdates (s : Statement) (u : StatementUpdates) (now : Nat) : Statement :=
  { s with
    content := u.content.getD s.content
    confidence := match u.confidence with | some c => some c | none => s.confidence
    tags := u.tags.getD s.tags
    type := u.type.getD s.type
    derivedFrom := u.derivedFrom.getD s.derivedFrom
    updatedAt := now }

/-- Statement.update: mutate in place, then validate the mutated object.
The mutated statement is returned together with the validation outcome;
on a validation error the TS object keeps the new field values (no rollback),
which is why the first component is the mutated statement in both cases. -/
def Statement.update (s : Statement) (u : StatementUpdates) (now : Nat) :
    Statement × Option KNError :=
  let s2 := s.applyUpdates u now
  (s2, s2.validate)

/-- The knowledge graph aggregate: the id → Statement map (insertion-ordered,
embedded as the list of its values, looked up through the id field) and the
reverse derivation index parent id → set of dependent ids. -/
structure KnowledgeNetwork where
  statements : List Statement
  derivationMap : List (String × List String)
deriving DecidableEq

def KnowledgeNetwork.empty : KnowledgeNetwork := ⟨[], []⟩

/-- Map.get on the statement map. -/
def KnowledgeNetwork.getStatement (n : KnowledgeNetwork) (id : String) : Option Statement :=
  n.statements.find? (fun s => s.id == id)

/-- derivationMap.get. -/
def bucket (m : List (String × List String)) (k : String) : Option (List String) :=
  (m.find? (fun e => e.fst == k)).map Prod.snd

/-- Set.add: append when not yet present. -/
def setAdd (l : List String) (x : String) : List String :=
  if x ∈ l then l else l ++ [x]

/-- if (!map.has(k)) map.set(k, new Set()); map.get(k).add(x). -/
def bucketAdd (m : List (String × List String)) (k x : String) :
    List (String × List String) :=
  match m.find? (fun e => e.fst == k) with
  | some _ => m.map (fun e => if e.fst == k then (e.fst, setAdd e.snd x) else e)
  | none => m ++ [(k, [x])]

/-- map.get(k)?.delete(x); if (map.get(k)?.size === 0) map.delete(k). -/
def bucketRemove (m : List (String × List String)) (k x : String) :
    List (String × List String) :=
  let m2 := m.map (fun e => if e.fst == k then (e.fst, e.snd.filter (fun y => y != x)) else e)
  match bucket m2 k with
  | some [] => m2.filter (fun e => e.fst != k)
  | _ => m2

/-- validateDerivations: the first parent id absent from the statement map,
if any (the TS code throws on it). -/
def firstMissingParent (n : KnowledgeNetwork) (parents : List String) : Option String :=
  parents.find? (fun p => (n.getStatement p).isNone)

/-- The recursive DFS of checkForCircularDependencies, sequentialized: the
worklist is the list of ids still to examine at the current level, visited is
threaded through the whole traversal, stack holds the current DFS path.
Fuel bounds the number of evaluation steps; exhaustion returns true but the
fuel supplied by checkCycle below strictly exceeds the step count of the
terminating TS recursion, so the exhaustion branch is never taken there. -/
def hasCycleList (n : KnowledgeNetwork) : Nat → List String → List String → List String →
    Bool × List String
  | 0, visited, _, _ => (true, visited)
  | _ + 1, visited, _, [] => (false, visited)
  | f + 1, visited, stack, id :: rest =>
    if id ∈ stack then (true, visited)
    else if id ∈ visited then hasCycleList n f visited stack rest
    else
      let visited2 := visited ++ [id]
      match n.getStatement id with
      | none => hasCycleList n f visited2 stack rest
      | some s =>
        match hasCycleList n f visited2 (id :: stack) s.derivedFrom with
        | (true, v) => (true, v)
        | (false, v) => hasCycleList n f v stack rest

/-- A generous step bound for the DFS of checkForCircularDependencies. -/
def cycleFuel (n : KnowledgeNetwork) (s : Statement) : Nat :=
  (n.statements.length + 2) *
    ((n.statements.map (fun t => t.derivedFrom.length)).sum + s.derivedFrom.length + 2)

/-- checkForCircularDependencies: the stack starts holding the statement
being inserted/updated, and each of its parents is searched from. -/
def checkCycle (n : KnowledgeNetwork) (s : Statement) : Bool :=
  (hasCycleList n (cycleFuel n s) [] [s.id] s.derivedFrom).fst

/-- KnowledgeNetwork.addStatement: duplicate-id guard, dangling-parent guard,
cycle guard, then insertion into the map and into every parent's bucket of
the reverse index.  The state is returned unchanged alongside the error when
a guard throws. -/
def KnowledgeNetwork.addStatement (n : KnowledgeNetwork) (s : Statement) :
    KnowledgeNetwork × Option KNError :=
  if (n.getStatement s.id).isSome then (n, some (.duplicateId s.id))
  else
    match firstMissingParent n s.derivedFrom with
    | some p => (n, some (.danglingParent p))
    | none =>
      if checkCycle n s then (n, some .cycleError)
      else
        ({ statements := n.statements ++ [s]
           derivationMap := s.derivedFrom.foldl (fun m p => bucketAdd m p s.id) n.derivationMap },
         none)

/-- Map.set on the key of an already-stored statement (in-place mutation of
the object held by the map). -/
def replaceStmt (l : List Statement) (id : String) (s2 : Statement) : List Statement :=
  l.map (fun t => if t.id == id then s2 else t)

/-- KnowledgeNetwork.updateStatement.  Statement.update mutates the stored
object before validating, so the map holds the mutated statement even when a
validation, dangling-parent or cycle error is thrown afterwards; only when
everything passes (and derivedFrom was provided) are the reverse-index edges
swapped. -/
def KnowledgeNetwork.updateStatement (n : KnowledgeNetwork) (id : String)
    (u : StatementUpdates) (now : Nat) : KnowledgeNetwork × Option KNError :=
  match n.getStatement id with
  | none => (n, some (.notFound id))
  | some stmt =>
    let oldDerivedFrom := stmt.derivedFrom
    let upd := stmt.update u now
    let n1 : KnowledgeNetwork :=
      { n with statements := replaceStmt n.statements id upd.fst }
    match upd.snd with
    | some e => (n1, some e)
    | none =>
      match u.derivedFrom with
      | none => (n1, none)
      | some _ =>
        match firstMissingParent n1 upd.fst.derivedFrom with
        | some p => (n1, some (.danglingParent p))
        | none =>
          if checkCycle n1 upd.fst then (n1, some .cycleError)
          else
            ({ statements := n1.statements
               derivationMap :=
                 upd.fst.derivedFrom.foldl (fun m p => bucketAdd m p upd.fst.id)
                   (oldDerivedFrom.foldl (fun m p => bucketRemove m p id) n1.derivationMap) },
             none)

/-- KnowledgeNetwork.deleteStatement: not-found guard, dependents guard, then
removal of the id from every parent's bucket and from the map. -/
def KnowledgeNetwork.deleteStatement (n : KnowledgeNetwork) (id : String) :
    KnowledgeNetwork × Option KNError :=
  match n.getStatement id with
  | none => (n, some (.notFound id))
  | some stmt =>
    match bucket n.derivationMap id with
    | some (_ :: _) => (n, some (.hasDependents id))
    | _ =>
      ({ statements := n.statements.filter (fun t => t.id != id)
         derivationMap := stmt.derivedFrom.foldl (fun m p => bucketRemove m p id) n.derivationMap },
       none)

/-- KnowledgeNetwork.getDependents: the dependent ids recorded for the given
id, resolved through the map, dropping ids that do not resolve. -/
def KnowledgeNetwork.getDependents (n : KnowledgeNetwork) (id : String) : List Statement :=
  match bucket n.derivationMap id with
  | none => []
  | some ids => ids.filterMap n.getStatement

/-- ASCII lower-casing used by the query content filter. -/
def strToLower (s : String) : String := String.mk (s.data.map Char.toLower)

/-- Bool test: pat is a prefix of s (over characters). -/
def isPrefixOfChars : List Char → List Char → Bool
  | [], _ => true
  | _ :: _, [] => false
  | c :: cs, d :: ds => c == d && isPrefixOfChars cs ds

/-- Bool test: String.prototype.includes. -/
def containsSub : List Char → List Char → Bool
  | [], pat => pat.isEmpty
  | c :: cs, pat => isPrefixOfChars pat (c :: cs) || containsSub cs pat

def strContains (s pat : String) : Bool := containsSub s.data pat.data

/-- The conjunctive query filter record (QueryOptions in src/core/types.ts). -/
structure QueryOptions where
  type : Option StatementType := none
  tags : Option (List String) := none
  content : Option String := none
  derivedFrom : Option (List String) := none
  minConfidence : Option ℚ := none

/-- KnowledgeNetwork.query: each provided (and, for the list/string fields,
truthy) option narrows the running result list in source order. -/
def KnowledgeNetwork.query (n : KnowledgeNetwork) (o : QueryOptions) : List Statement :=
  let r0 := n.statements
  let r1 := match o.type with
    | some t => r0.filter (fun s => s.type == t)
    | none => r0
  let r2 := match o.tags with
    | some (t :: ts) => r1.filter (fun s => (t :: ts).any (fun tag => s.tags.contains tag))
    | _ => r1
  let r3 := match o.content with
    | some c =>
      if c == "" then r2
      else r2.filter (fun s => strContains (strToLower s.content) (strToLower c))
    | none => r2
  let r4 := match o.derivedFrom with
    | some (d :: ds) => r3.filter (fun s => (d :: ds).any (fun i => s.derivedFrom.contains i))
    | _ => r3
  match o.minConfidence with
  | some m => r4.filter (fun s =>
      match s.confidence with
      | some c => decide (m ≤ c)
      | none => false)
  | none => r4

def KnowledgeNetwork.getAllStatements (n : KnowledgeNetwork) : List Statement :=
  n.statements

def KnowledgeNetwork.getStatementsByType (n : KnowledgeNetwork) (t : StatementType) :
    List Statement :=
  n.statements.filter (fun s => s.type == t)

/-- The plain persisted record produced by KnowledgeNetwork.toJSON. -/
structure NetworkMetadata where
  version : String
  exportedAt : Nat
  totalStatements : Nat
  axioms : Nat
  theories : Nat
deriving DecidableEq

structure KnowledgeNetworkData where
  statements : List Statement
  metadata : NetworkMetadata
deriving DecidableEq

/-- Statement.toJSON copies every field to a plain record; the record carries
the same fields as the entity, so it is embedded by the entity type itself
and toJSON is the identity on the field data. -/
def Statement.toJSON (s : Statement) : Statement := s

/-- Statement.fromJSON runs the constructor on the record fields: the fields
are copied and the construction-time validation re-runs (the id is taken from
the record; the uuid fallback for a falsy id is not modelled, every id in
scope here is a nonempty literal). -/
def Statement.fromJSON (d : Statement) : Statement × Option KNError :=
  (d, d.validate)

/-- KnowledgeNetwork.toJSON (exportedAt is the caller-visible clock value). -/
def KnowledgeNetwork.toJSON (n : KnowledgeNetwork) (now : Nat) : KnowledgeNetworkData :=
  { statements := n.statements.map Statement.toJSON
    metadata :=
      { version := "1.0.0"
        exportedAt := now
        totalStatements := n.statements.length
        axioms := (n.getStatementsByType .axm).length
        theories := (n.getStatementsByType .theory).length } }

/-- One step of the stable ascending insertion used to model
statements.sort((a, b) => a.derivedFrom.length - b.derivedFrom.length):
an element is inserted after every element of equal key, which is exactly
the stability guarantee of Array.prototype.sort. -/
def sortInsert (x : Statement) : List Statement → List Statement
  | [] => [x]
  | y :: ys =>
    if x.derivedFrom.length < y.derivedFrom.length then x :: y :: ys
    else y :: sortInsert x ys

/-- The stable sort by ascending parent count performed by fromJSON. -/
def stableSortByParentCount (l : List Statement) : List Statement :=
  l.foldl (fun acc x => sortInsert x acc) []

/-- The re-insertion loop of KnowledgeNetwork.fromJSON; the first add that
throws aborts the loop and surfaces the error. -/
def addAll (n : KnowledgeNetwork) : List Statement → KnowledgeNetwork × Option KNError
  | [] => (n, none)
  | s :: rest =>
    match n.addStatement s with
    | (n2, none) => addAll n2 rest
    | (n2, some e) => (n2, some e)

/-- KnowledgeNetwork.fromJSON: reconstruct every statement (constructor
validation may throw), sort ascending by derivedFrom.length, then re-add in
that order into an empty network. -/
def KnowledgeNetwork.fromJSON (d : KnowledgeNetworkData) :
    KnowledgeNetwork × Option KNError :=
  match d.statements.findSome? (fun s => (Statement.fromJSON s).snd) with
  | some e => (KnowledgeNetwork.empty, some e)
  | none => addAll KnowledgeNetwork.empty (stableSortByParentCount d.statements)

/-- DerivationEngine.calculateConfidence.  Fuel only bounds the recursion
depth; on the acyclic graphs every theorem below quantifies over, any fuel
at least the position of the statement in the insertion order computes the
value of the (terminating) TS recursion. -/
def calculateConfidence (n : KnowledgeNetwork) : Nat → String → Option ℚ
  | 0, _ => none
  | fuel + 1, id =>
    match n.getStatement id with
    | none => none
    | some s =>
      match s.confidence with
      | some c => some c
      | none =>
        if s.type = .axm then some 1
        else if s.derivedFrom.isEmpty then none
        else
          match s.derivedFrom.filterMap (calculateConfidence n fuel) with
          | [] => none
          | c :: cs => some (ratMul (cs.foldl min c) (mkRat 19 20))

/-- The engine denotation of calculateConfidence: fuel one past the number of
statements, which the stability lemmas below prove is always enough. -/
def confidenceOf (n : KnowledgeNetwork) (id : String) : Option ℚ :=
  calculateConfidence n (n.statements.length + 1) id

/-- DerivationEngine.getDerivationDepth (−1 for an unknown id, 0 for axioms
and parentless statements, otherwise Math.max over the parents plus one). -/
def getDerivationDepth (n : KnowledgeNetwork) : Nat → String → Int
  | 0, _ => 0
  | fuel + 1, id =>
    match n.getStatement id with
    | none => -1
    | some s =>
      if s.type = .axm ∨ s.derivedFrom = [] then 0
      else
        match s.derivedFrom.map (getDerivationDepth n fuel) with
        | [] => 0
        | d :: ds => ds.foldl max d + 1

/-- The engine denotation of getDerivationDepth at always-sufficient fuel. -/
def depthOf (n : KnowledgeNetwork) (id : String) : Int :=
  getDerivationDepth n (n.statements.length + 1) id

/-- The neighbour ids explored from one BFS vertex: the statement's parents,
then the ids of its resolved dependents; an id with no stored statement is
not expanded at all. -/
def nbrs (n : KnowledgeNetwork) (id : String) : List String :=
  match n.getStatement id with
  | none => []
  | some s => s.derivedFrom ++ (n.getDependents id).map (fun t => t.id)

/-- The queue loop of DerivationEngine.findShortestPath: pop, return the
carried path on reaching the target, skip visited ids, otherwise mark and
enqueue every neighbour with the extended path.  One fuel unit per loop
iteration. -/
def bfsLoop (n : KnowledgeNetwork) (toId : String) :
    Nat → List String → List (String × List String) → Option (List String)
  | _, _, [] => none
  | 0, _, _ :: _ => none
  | fuel + 1, visited, (id, path) :: rest =>
    if id == toId then some path
    else if id ∈ visited then bfsLoop n toId fuel visited rest
    else
      let visited2 := visited ++ [id]
      match n.getStatement id with
      | none => bfsLoop n toId fuel visited2 rest
      | some _ =>
        bfsLoop n toId fuel visited2
          (rest ++ (nbrs n id).map (fun b => (b, path ++ [b])))

/-- Every id the BFS can ever enqueue: the start id, the stored ids and every
id mentioned in a derivedFrom list (deduplicated). -/
def idUniverse (n : KnowledgeNetwork) (fromId : String) : List String :=
  (fromId :: (n.statements.map Statement.id ++ (n.statements.map Statement.derivedFrom).flatten)).dedup

/-- Upper bound on the remaining loop iterations from a BFS state: the queue
length plus, for every unvisited id of the universe, one iteration plus its
neighbour count. -/
def bfsMeasure (n : KnowledgeNetwork) (univ visited : List String) (qlen : Nat) : Nat :=
  qlen + ((univ.filter (fun v => decide (v ∉ visited))).map
    (fun v => 1 + (nbrs n v).length)).sum

/-- DerivationEngine.findShortestPath, run with provably sufficient fuel. -/
def findShortestPath (n : KnowledgeNetwork) (fromId toId : String) : Option (List String) :=
  bfsLoop n toId (bfsMeasure n (idUniverse n fromId) [] 1 + 1) [] [(fromId, [fromId])]

/-- Word characters in the sense of the \w class applied to the engine's
ASCII contents. -/
def isWordChar (c : Char) : Bool := c.isAlphanum || c = '_'

/-- One character of normalizeContent's [^\w\s] → space replacement. -/
def nonWordToSpace (c : Char) : Char :=
  if isWordChar c || isSpaceChar c then c else ' '

/-- The \s+ → single space collapse (the flag records whether the previous
emitted character came from a whitespace run). -/
def collapseSpaces (prevSpace : Bool) : List Char → List Char
  | [] => []
  | c :: cs =>
    if isSpaceChar c then
      if prevSpace then collapseSpaces true cs
      else ' ' :: collapseSpaces true cs
    else c :: collapseSpaces false cs

/-- String.prototype.trim on the already-collapsed character list. -/
def trimChars (l : List Char) : List Char :=
  ((l.dropWhile isSpaceChar).reverse.dropWhile isSpaceChar).reverse

/-- ContradictionDetector.normalizeContent: lower-case, replace every
non-word non-space character by a space, collapse whitespace runs, trim. -/
def normalizeContent (s : String) : String :=
  String.mk (trimChars (collapseSpaces false (s.data.map (fun c => nonWordToSpace c.toLower))))

/-- String.prototype.replace with a string pattern: remove the first
occurrence of pat, leave the string unchanged when pat does not occur. -/
def replaceFirstChars : List Char → List Char → List Char
  | [], _ => []
  | c :: cs, pat =>
    if isPrefixOfChars pat (c :: cs) then (c :: cs).drop pat.length
    else c :: replaceFirstChars cs pat

def replaceFirst (s pat : String) : String :=
  String.mk (replaceFirstChars s.data pat.data)

/-- str.split(' ') (single-space separator, empty pieces included, exactly
as in JS). -/
def splitOnSpace : List Char → List String
  | [] => [""]
  | c :: cs =>
    match splitOnSpace cs with
    | [] => [""]
    | w :: ws => if c = ' ' then "" :: w :: ws else String.mk (c :: w.data) :: ws

/-- The word set used by calculateSimilarity: the split pieces longer than
two characters, as a set (deduplicated; only sizes are consumed). -/
def wordSet (s : String) : List String :=
  ((splitOnSpace s.data).filter (fun w => 2 < w.length)).dedup

/-- ContradictionDetector.calculateSimilarity: the Jaccard index over the
two word sets, 0 when either is empty. -/
def calculateSimilarity (s1 s2 : String) : ℚ :=
  let w1 := wordSet s1
  let w2 := wordSet s2
  if w1.isEmpty || w2.isEmpty then 0
  else mkRat (w1.filter (fun w => w ∈ w2)).length ((w1 ++ w2).dedup.length)

/-- ContradictionDetector.areSimilar: re-normalize both sides, accept on
string equality, otherwise require Jaccard similarity strictly above 0.8. -/
def areSimilar (s1 s2 : String) : Bool :=
  let n1 := normalizeContent s1
  let n2 := normalizeContent s2
  n1 == n2 || decide (mkRat 8 10 < calculateSimilarity n1 n2)

inductive Severity
  | high
  | medium
  | low
deriving DecidableEq

/-- The transient pair record produced by the detector. -/
structure ContradictionPair where
  statement1 : Statement
  statement2 : Statement
  reason : String
  severity : Severity
deriving DecidableEq

/-- The fixed opposite-term table of checkDirectContradiction. -/
def opposites : List (String × String) :=
  [("true", "false"), ("always", "never"), ("all", "none"),
   ("possible", "impossible"), ("necessary", "unnecessary"),
   ("exist", "not exist"), ("exists", "does not exist")]

/-- Both table words removed (first occurrence each) from a content. -/
def stripBoth (c w1 w2 : String) : String := replaceFirst (replaceFirst c w1) w2

/-- One table entry of checkDirectContradiction fires: the two contents
contain the two words of the entry (in either assignment) and the remainders
with both words stripped pass areSimilar. -/
def oppFires (c1 c2 : String) (e : String × String) : Bool :=
  ((strContains c1 e.fst && strContains c2 e.snd) ||
   (strContains c1 e.snd && strContains c2 e.fst)) &&
  areSimilar (stripBoth c1 e.fst e.snd) (stripBoth c2 e.fst e.snd)

def opposingReason (w1 w2 : String) : String :=
  "Opposing terms: \"" ++ w1 ++ "\" vs \"" ++ w2 ++ "\""

/-- The table scan of checkDirectContradiction (first firing entry wins). -/
def scanOpposites (s1 s2 : Statement) (c1 c2 : String) :
    List (String × String) → Option ContradictionPair
  | [] => none
  | e :: rest =>
    if oppFires c1 c2 e then
      some { statement1 := s1, statement2 := s2
             reason := opposingReason e.fst e.snd, severity := .high }
    else scanOpposites s1 s2 c1 c2 rest

/-- ContradictionDetector.checkDirectContradiction. -/
def checkDirectContradiction (s1 s2 : Statement) : Option ContradictionPair :=
  let c1 := normalizeContent s1.content
  let c2 := normalizeContent s2.content
  if c1 == c2 && s1.type == s2.type then none
  else scanOpposites s1 s2 c1 c2 opposites

/-- One positive/negative template pair of checkNegationContradiction:
either the bare-content template (positive matches any nonempty content,
negative strips a leading marker) or a binary template splitting on a
connective (positive) and its negated connective (negative); the compared
core is always the first capture group. -/
inductive NegPat
  | bare (marker : String)
  | binary (sepPos sepNeg : String)

/-- ^marker(.+)$ — the capture after a leading marker. -/
def markerMatch (marker s : String) : Option String :=
  if isPrefixOfChars marker.data s.data && marker.data.length < s.data.length then
    some (String.mk (s.data.drop marker.data.length))
  else none

/-- ^(.+)sep(.+)$ with a greedy first group: both sides nonempty and the
split taken at the last admissible occurrence of sep; returns both groups. -/
def greedySplit (sep s : String) : Option (String × String) :=
  match ((List.range s.data.length).filter (fun k =>
      decide (1 ≤ k) && isPrefixOfChars sep.data (s.data.drop k) &&
      decide (k + sep.data.length < s.data.length))).getLast? with
  | none => none
  | some k => some (String.mk (s.data.take k), String.mk (s.data.drop (k + sep.data.length)))

/-- The first capture group of the positive template. -/
def posMatch : NegPat → String → Option String
  | .bare _, s => if s == "" then none else some s
  | .binary sp _, s => (greedySplit sp s).map Prod.fst

/-- The first capture group of the negative template. -/
def negMatch : NegPat → String → Option String
  | .bare marker, s => markerMatch marker s
  | .binary _ sn, s => (greedySplit sn s).map Prod.fst

/-- The fixed template list of checkNegationContradiction, in source order. -/
def negationPatternList : List NegPat :=
  [.bare "not ", .bare "no ",
   .binary " is " " is not ", .binary " are " " are not ",
   .binary " can " " cannot ", .binary " will " " will not "]

/-- Both cores matched and passed areSimilar. -/
def negHit (a b : Option String) : Bool :=
  match a, b with
  | some x, some y => areSimilar x y
  | _, _ => false

/-- The template scan of checkNegationContradiction: for each template try
positive(content1)/negative(content2), then the swapped assignment. -/
def scanNeg (s1 s2 : Statement) (c1 c2 : String) : List NegPat → Option ContradictionPair
  | [] => none
  | p :: rest =>
    if negHit (posMatch p c1) (negMatch p c2) || negHit (negMatch p c1) (posMatch p c2) then
      some { statement1 := s1, statement2 := s2
             reason := "Direct negation pattern detected", severity := .high }
    else scanNeg s1 s2 c1 c2 rest

/-- ContradictionDetector.checkNegationContradiction. -/
def checkNegationContradiction (s1 s2 : Statement) : Option ContradictionPair :=
  scanNeg s1 s2 (normalizeContent s1.content) (normalizeContent s2.content)
    negationPatternList

/-- The fixed directional antonym table of checkSemanticContradiction. -/
def contradictoryPairs : List (String × String) :=
  [("increase", "decrease"), ("rise", "fall"), ("grow", "shrink"),
   ("expand", "contract"), ("strengthen", "weaken"), ("improve", "worsen"),
   ("accelerate", "decelerate"), ("positive", "negative"), ("benefit", "harm"),
   ("help", "hinder"), ("support", "oppose"), ("agree", "disagree"),
   ("accept", "reject"), ("allow", "forbid"), ("permit", "prohibit")]

/-- One antonym entry fires: cross containment and Jaccard similarity of the
stripped remainders strictly above 0.7 (no equality shortcut here: the
source calls calculateSimilarity directly). -/
def semFires (c1 c2 : String) (e : String × String) : Bool :=
  ((strContains c1 e.fst && strContains c2 e.snd) ||
   (strContains c1 e.snd && strContains c2 e.fst)) &&
  decide (mkRat 7 10 <
    calculateSimilarity (stripBoth c1 e.fst e.snd) (stripBoth c2 e.fst e.snd))

def contradictoryReason (w1 w2 : String) : String :=
  "Contradictory terms: \"" ++ w1 ++ "\" vs \"" ++ w2 ++ "\""

/-- The table scan of checkSemanticContradiction. -/
def scanSem (s1 s2 : Statement) (c1 c2 : String) :
    List (String × String) → Option ContradictionPair
  | [] => none
  | e :: rest =>
    if semFires c1 c2 e then
      some { statement1 := s1, statement2 := s2
             reason := contradictoryReason e.fst e.snd, severity := .medium }
    else scanSem s1 s2 c1 c2 rest

/-- ContradictionDetector.checkSemanticContradiction. -/
def checkSemanticContradiction (s1 s2 : Statement) : Option ContradictionPair :=
  scanSem s1 s2 (normalizeContent s1.content) (normalizeContent s2.content)
    contradictoryPairs

/-- ContradictionDetector.checkForContradiction: direct, then negation, then
semantic; the first positive result wins. -/
def checkForContradiction (s1 s2 : Statement) : Option ContradictionPair :=
  match checkDirectContradiction s1 s2 with
  | some p => some p
  | none =>
    match checkNegationContradiction s1 s2 with
    | some p => some p
    | none => checkSemanticContradiction s1 s2

/-- QueryService.getStatementsByConfidenceRange: every stored statement whose
explicit confidence — or, when absent, engine-computed confidence — lies in
[min, max]. -/
def getStatementsByConfidenceRange (n : KnowledgeNetwork) (lo hi : ℚ) : List Statement :=
  n.statements.filter (fun s =>
    match s.confidence with
    | some c => decide (lo ≤ c) && decide (c ≤ hi)
    | none =>
      match confidenceOf n s.id with
      | some c => decide (lo ≤ c) && decide (c ≤ hi)
      | none => false)

/-- The valid graphs of the specification: the states reachable from the
empty network by successful addStatement calls. -/
inductive AddReachable : KnowledgeNetwork → Prop
  | empty : AddReachable KnowledgeNetwork.empty
  | add (n : KnowledgeNetwork) (s : Statement) (n2 : KnowledgeNetwork) :
      AddReachable n → n.addStatement s = (n2, none) → AddReachable n2

/-- The parent ids of a stored id ([] when absent). -/
def parentsOf (n : KnowledgeNetwork) (id : String) : List String :=
  match n.getStatement id with
  | none => []
  | some s => s.derivedFrom

/-- One round of the ancestor closure. -/
def ancClosureStep (n : KnowledgeNetwork) (front : List String) : List String :=
  ((front.map (parentsOf n)).flatten ++ front).dedup

def ancClosure (n : KnowledgeNetwork) : Nat → List String → List String
  | 0, front => front
  | k + 1, front => ancClosure n k (ancClosureStep n front)

/-- All ids reachable from id through one or more derivedFrom steps
(the closure stabilizes after at most one round per stored statement). -/
def strictAncestors (n : KnowledgeNetwork) (id : String) : List String :=
  ancClosure n n.statements.length (parentsOf n id)

/-- Every parent id referenced by a live statement resolves to a live
statement. -/
def NoDanglingParents (n : KnowledgeNetwork) : Prop :=
  ∀ s ∈ n.statements, ∀ p ∈ s.derivedFrom, ∃ t ∈ n.statements, t.id = p

/-- The derivation relation over the stored statements is acyclic. -/
def DerivationAcyclic (n : KnowledgeNetwork) : Prop :=
  ∀ s ∈ n.statements, s.id ∉ strictAncestors n s.id

/-- The graph invariant of the specification. -/
def InvariantOK (n : KnowledgeNetwork) : Prop :=
  NoDanglingParents n ∧ DerivationAcyclic n

instance (n : KnowledgeNetwork) : Decidable (NoDanglingParents n) := by
  unfold NoDanglingParents; infer_instance

instance (n : KnowledgeNetwork) : Decidable (DerivationAcyclic n) := by
  unfold DerivationAcyclic; infer_instance

instance (n : KnowledgeNetwork) : Decidable (InvariantOK n) := by
  unfold InvariantOK; infer_instance

/-- Fixture constructor: a statement with empty tags and zero timestamps. -/
def mkStmt (id : String) (type : StatementType) (content : String)
    (confidence : Option ℚ) (derivedFrom : List String) : Statement :=
  { id := id, type := type, content := content, confidence := confidence,
    tags := [], createdAt := 0, updatedAt := 0, derivedFrom := derivedFrom }

/-- Fixture: conclusion A, theory B derived from A. -/
def stA : Statement := mkStmt "A" .conclusion "a" none []
def stB : Statement := mkStmt "B" .theory "b" none ["A"]
def net2 : KnowledgeNetwork :=
  ((KnowledgeNetwork.empty.addStatement stA).fst.addStatement stB).fst

/-- The update that asks A to derive from B. -/
def updAtoB : StatementUpdates := { derivedFrom := some ["B"] }

/-- Fixture for serialization: two axioms, a two-parent theory Y, and a
one-parent theory Z derived from Y. -/
def stX1 : Statement := mkStmt "X1" .axm "x one" none []
def stX2 : Statement := mkStmt "X2" .axm "x two" none []
def stY : Statement := mkStmt "Y" .theory "y" none ["X1", "X2"]
def stZ : Statement := mkStmt "Z" .theory "z" none ["Y"]
def net3 : KnowledgeNetwork :=
  ((((KnowledgeNetwork.empty.addStatement stX1).fst.addStatement stX2).fst.addStatement
    stY).fst.addStatement stZ).fst

/-- Fixture for confidence: parents 0.8 and 0.6, theory with no explicit
confidence. -/
def stP1 : Statement := mkStmt "P1" .axm "p one" (some (mkRat 4 5)) []
def stP2 : Statement := mkStmt "P2" .axm "p two" (some (mkRat 3 5)) []
def stT : Statement := mkStmt "T" .theory "t" none ["P1", "P2"]
def net4 : KnowledgeNetwork :=
  (((KnowledgeNetwork.empty.addStatement stP1).fst.addStatement stP2).fst.addStatement
    stT).fst

/-- Fixture for depth: the chain axiom → T1 → T2 → T3. -/
def stA0 : Statement := mkStmt "A0" .axm "a zero" none []
def stT1 : Statement := mkStmt "T1" .theory "t one" none ["A0"]
def stT2 : Statement := mkStmt "T2" .theory "t two" none ["T1"]
def stT3 : Statement := mkStmt "T3" .theory "t three" none ["T2"]
def net7a : KnowledgeNetwork :=
  ((((KnowledgeNetwork.empty.addStatement stA0).fst.addStatement stT1).fst.addStatement
    stT2).fst.addStatement stT3).fst

/-- Fixture for depth: the diamond where T3 derives from both T1 and T2. -/
def stT3d : Statement := mkStmt "T3" .theory "t three" none ["T1", "T2"]
def net7b : KnowledgeNetwork :=
  ((((KnowledgeNetwork.empty.addStatement stA0).fst.addStatement stT1).fst.addStatement
    stT2).fst.addStatement stT3d).fst

/-- Fixture for shortest path: chain A → B → C with side axiom D → C. -/
def stSA : Statement := mkStmt "A" .axm "sa" none []
def stSD : Statement := mkStmt "D" .axm "sd" none []
def stSB : Statement := mkStmt "B" .theory "sb" none ["A"]
def stSC : Statement := mkStmt "C" .theory "sc" none ["B", "D"]
def net8 : KnowledgeNetwork :=
  ((((KnowledgeNetwork.empty.addStatement stSA).fst.addStatement stSD).fst.addStatement
    stSB).fst.addStatement stSC).fst

/-- Fixture for the query/minConfidence contrast: one axiom without explicit
confidence. -/
def stQ : Statement := mkStmt "Q" .axm "q" none []
def netC10 : KnowledgeNetwork := (KnowledgeNetwork.empty.addStatement stQ).fst

/-- Fixtures for the contradiction claims. -/
def ex1 : Statement := mkStmt "E1" .axm "Exercise improves health" none []
def ex2 : Statement := mkStmt "E2" .axm "Exercise does not improve health" none []
def sky1 : Statement := mkStmt "S1" .axm "The sky is always blue" none []
def sky2 : Statement := mkStmt "S2" .axm "The sky is never blue" none []
def cx1 : Statement := mkStmt "CX1" .axm "always aaa bbb ccc ddd" none []
def cx2 : Statement := mkStmt "CX2" .axm "never aaa bbb ccc ddd eee" none []

/-- Topological layout of the statement list: every parent id of a stored
statement is the id of an earlier stored statement. -/
def ParentsBefore (l : List Statement) : Prop :=
  ∀ pre s post, l = pre ++ s :: post → ∀ p ∈ s.derivedFrom, ∃ t ∈ pre, t.id = p

/-- The stored ids are pairwise distinct. -/
def IdsNodup (n : KnowledgeNetwork) : Prop :=
  (n.statements.map Statement.id).Nodup

/-- The reverse index agrees with the derivedFrom fields: the bucket of every
id holds exactly the ids of the stored statements listing it as a parent, in
storage order. -/
def IndexConsistent (n : KnowledgeNetwork) : Prop :=
  ∀ p : String, (bucket n.derivationMap p).getD [] =
    (n.statements.filter (fun s => decide (p ∈ s.derivedFrom))).map Statement.id

/-- Adjacency of the undirected view of the derivation edges: each statement
is adjacent to its parents and to its dependents. -/
def UndirAdj (n : KnowledgeNetwork) (a b : String) : Prop :=
  (∃ s, n.getStatement a = some s ∧ b ∈ s.derivedFrom) ∨
  (∃ s, n.getStatement b = some s ∧ a ∈ s.derivedFrom)

/-- An id sequence that walks the undirected view from src to dst. -/
def IsUndirPath (n : KnowledgeNetwork) (src dst : String) (p : List String) : Prop :=
  p.head? = some src ∧ p.getLast? = some dst ∧ List.Chain' (UndirAdj n) p

/-- The directed exploration step really taken by the BFS loop. -/
def IsNbrPath (n : KnowledgeNetwork) (src dst : String) (p : List String) : Prop :=
  p.head? = some src ∧ p.getLast? = some dst ∧ List.Chain' (fun a b => b ∈ nbrs n a) p

/-- BFS queue invariant: every entry carries a path from the source to its
id. -/
def QueueEntryOK (n : KnowledgeNetwork) (fromId : String)
    (queue : List (String × List String)) : Prop :=
  ∀ e ∈ queue, IsNbrPath n fromId e.fst e.snd

/-- BFS queue invariant: carried path lengths are nondecreasing and spread
over at most two consecutive values. -/
def LensOK (queue : List (String × List String)) : Prop :=
  List.Pairwise (fun a b => a ≤ b) (queue.map fun e => e.snd.length) ∧
  ∀ e ∈ queue, ∀ e2 ∈ queue, e.snd.length ≤ e2.snd.length + 1

/-- BFS frontier invariant: every path from the source to an unvisited
vertex can be shortened (never lengthened) to a path that passes through a
queued unvisited vertex whose queue path is no longer than its position, with
the whole remainder of the path unvisited. -/
def Covering (n : KnowledgeNetwork) (fromId : String) (visited : List String)
    (queue : List (String × List String)) : Prop :=
  ∀ w, w ∉ visited → ∀ q, IsNbrPath n fromId w q →
    ∃ r1 v r2 p2, IsNbrPath n fromId w (r1 ++ v :: r2) ∧
      (r1 ++ v :: r2).length ≤ q.length ∧ (v, p2) ∈ queue ∧
      p2.length ≤ r1.length + 1 ∧ v ∉ visited ∧ ∀ u ∈ r2, u ∉ visited

end KnowNet

namespace KnowNet

/-- Executable multiplication agrees with the rational product. -/
theorem ratMul_eq_mul (a b : ℚ) : ratMul a b = a * b := by
  unfold ratMul
  rw [Rat.mkRat_eq_div]
  push_cast
  conv_rhs => rw [← Rat.num_div_den a, ← Rat.num_div_den b]
  rw [div_mul_div_comm]

/-- A successful addStatement step preserves reachability. -/
theorem AddReachable.step {n : KnowledgeNetwork} {s : Statement}
    (hr : AddReachable n) (h : (n.addStatement s).snd = none) :
    AddReachable (n.addStatement s).fst := by
  refine AddReachable.add n s (n.addStatement s).fst hr ?_
  have h2 : n.addStatement s = ((n.addStatement s).fst, (n.addStatement s).snd) := rfl
  rw [h] at h2
  exact h2

theorem net2_reachable : AddReachable net2 :=
  (AddReachable.empty.step (by decide)).step (by decide)

theorem net3_reachable : AddReachable net3 :=
  (((AddReachable.empty.step (by decide)).step (by decide)).step (by decide)).step (by decide)

/-- C1: the claimed invariant — acyclicity and resolvable parents at every
observable point, including right after a throwing operation — fails on the
code: from the valid graph holding conclusion A and theory B derived from A,
updating A to derive from B throws the cycle error, yet the post-throw graph
(whose stored A was mutated in place before validation) contains the cycle
A → B → A, so the invariant is broken at an observable point. -/
theorem c1_invariant_broken_after_failed_update :
    AddReachable net2 ∧ InvariantOK net2 ∧
    (net2.updateStatement "A" updAtoB 5).snd = some .cycleError ∧
    ¬ InvariantOK (net2.updateStatement "A" updAtoB 5).fst :=
  ⟨net2_reachable, by decide, by decide, by decide⟩

/-- C2: updating A (derivable head of the edge A → B) to derive from B does
fail with the cycle error, but the graph is not left unchanged: A's
derivedFrom and updatedAt keep the mutated values after the throw (the
reverse-dependents index alone is untouched). -/
theorem c2_cycle_error_but_graph_mutated :
    AddReachable net2 ∧
    (net2.getStatement "A").map (fun s => (s.derivedFrom, s.updatedAt)) = some ([], 0) ∧
    (net2.updateStatement "A" updAtoB 5).snd = some .cycleError ∧
    ((net2.updateStatement "A" updAtoB 5).fst.getStatement "A").map
      (fun s => (s.derivedFrom, s.updatedAt)) = some (["B"], 5) ∧
    (net2.updateStatement "A" updAtoB 5).fst.derivationMap = net2.derivationMap :=
  ⟨net2_reachable, by decide, by decide, by decide, by decide⟩

/-- C3: serialize/deserialize does not succeed on every graph reachable by
successful adds: net3 (axioms X1 and X2, two-parent theory Y, one-parent
theory Z derived from Y) is valid, but re-insertion sorted by ascending
derivedFrom length places Z (one parent) before its parent Y (two parents),
so deserialization throws a dangling-parent error instead of rebuilding the
graph. -/
theorem c3_roundtrip_fails_on_valid_graph :
    AddReachable net3 ∧
    (KnowledgeNetwork.fromJSON (net3.toJSON 9)).snd = some (.danglingParent "Y") :=
  ⟨net3_reachable, by decide⟩

/-- C5 counterexample: the pair "Exercise improves health" /
"Exercise does not improve health" is not reported at all — the full
contradiction check returns no pair, contradicting the claimed high-severity
negation report. -/
theorem c5_exercise_pair_not_reported :
    checkForContradiction ex1 ex2 = none := by decide

/-- C5 (amended): the negation detector cannot fire on this pair — none of
the six fixed templates has a negative side matching either normalized
content (no template covers a mid-sentence "does not") — and the direct and
semantic detectors do not fire either, so the check reports nothing. -/
theorem c5_no_template_matches_exercise_pair :
    (∀ p ∈ negationPatternList,
      negMatch p (normalizeContent ex1.content) = none ∧
      negMatch p (normalizeContent ex2.content) = none) ∧
    checkNegationContradiction ex1 ex2 = none ∧
    checkDirectContradiction ex1 ex2 = none ∧
    checkSemanticContradiction ex1 ex2 = none ∧
    checkForContradiction ex1 ex2 = none := by
  refine ⟨?_, by decide, by decide, by decide, by decide⟩
  decide

/-- Every entry of bucketRemove m k x comes from an entry of m with the same
key, either with x filtered out of its id set or untouched (for keys other
than k). -/
theorem bucketRemove_mem {m : List (String × List String)} {k x : String}
    {e : String × List String} (he : e ∈ bucketRemove m k x) :
    ∃ e0 ∈ m, e.fst = e0.fst ∧
      (e.snd = e0.snd.filter (fun y => y != x) ∨ (e = e0 ∧ e0.fst ≠ k)) := by
  unfold bucketRemove at he
  simp only [] at he
  have hm2 : e ∈ m.map (fun e =>
      if e.fst == k then (e.fst, e.snd.filter (fun y => y != x)) else e) := by
    split at he
    · exact (List.mem_filter.mp he).1
    · exact he
  obtain ⟨e0, he0, hfe⟩ := List.mem_map.mp hm2
  by_cases hk : e0.fst = k
  · refine ⟨e0, he0, ?_, Or.inl ?_⟩ <;> rw [← hfe] <;> simp [hk]
  · refine ⟨e0, he0, ?_, Or.inr ⟨?_, hk⟩⟩ <;> rw [← hfe] <;>
      simp [beq_eq_false_iff_ne.mpr hk]

/-- After removing x at its own key, no entry at that key contains x. -/
theorem bucketRemove_clears_self {m : List (String × List String)} {k x : String} :
    ∀ e ∈ bucketRemove m k x, e.fst = k → x ∉ e.snd := by
  intro e he hk
  obtain ⟨e0, _, hfst, hsnd⟩ := bucketRemove_mem he
  rcases hsnd with h1 | ⟨heq, hne⟩
  · rw [h1]
    intro hx
    have := (List.mem_filter.mp hx).2
    simp at this
  · subst heq
    exact absurd hk hne

/-- bucketRemove with removal target x never introduces x at any key. -/
theorem bucketRemove_keeps_clear {m : List (String × List String)} {k x p : String}
    (h : ∀ e ∈ m, e.fst = p → x ∉ e.snd) :
    ∀ e ∈ bucketRemove m k x, e.fst = p → x ∉ e.snd := by
  intro e he hp
  obtain ⟨e0, he0, hfst, hsnd⟩ := bucketRemove_mem he
  rcases hsnd with h1 | ⟨heq, _⟩
  · rw [h1]
    intro hx
    have := (List.mem_filter.mp hx).2
    simp at this
  · subst heq
    exact h e he0 hp

/-- Folding bucketRemove x over a key list clears x from every processed key
and keeps it cleared everywhere it already was absent. -/
theorem fold_remove_clears (x : String) :
    ∀ (ps : List String) (m : List (String × List String)) (p : String),
      (p ∈ ps ∨ ∀ e ∈ m, e.fst = p → x ∉ e.snd) →
      ∀ e ∈ ps.foldl (fun acc q => bucketRemove acc q x) m, e.fst = p → x ∉ e.snd := by
  intro ps
  induction ps with
  | nil =>
    intro m p hp
    rcases hp with h | h
    · cases h
    · simpa using h
  | cons q qs ih =>
    intro m p hp
    simp only [List.foldl_cons]
    apply ih (bucketRemove m q x) p
    rcases hp with hmem | hprop
    · rcases List.mem_cons.mp hmem with rfl | hqs
      · exact Or.inr bucketRemove_clears_self
      · exact Or.inl hqs
    · exact Or.inr (bucketRemove_keeps_clear hprop)

/-- An entry-wise guarantee transfers to the bucket lookup. -/
theorem not_mem_bucket_of_entries {m : List (String × List String)} {p x : String}
    (h : ∀ e ∈ m, e.fst = p → x ∉ e.snd) {l : List String}
    (hb : bucket m p = some l) : x ∉ l := by
  unfold bucket at hb
  cases hf : m.find? (fun e => e.fst == p) with
  | none => rw [hf] at hb; cases hb
  | some e =>
    rw [hf] at hb
    have hl : e.snd = l := by simpa using hb
    have hm := List.mem_of_find?_eq_some hf
    have hp : e.fst = p := by
      have h2 := List.find?_some hf
      simpa using h2
    exact hl ▸ h e hm hp

/-- C9: deleteStatement behaviour on every graph: an id with a recorded
dependent is refused with the has-dependents error and the graph is returned
unchanged; an absent id is refused with not-found; an id with no recorded
dependents is deleted, disappearing from the id map and from every parent's
dependents bucket. -/
theorem c9_delete_statement_behaviour :
    ∀ (n : KnowledgeNetwork) (id : String),
      (n.getStatement id = none → n.deleteStatement id = (n, some (.notFound id))) ∧
      (∀ s, n.getStatement id = some s → ∀ d ds,
        bucket n.derivationMap id = some (d :: ds) →
        n.deleteStatement id = (n, some (.hasDependents id))) ∧
      (∀ s, n.getStatement id = some s →
        (bucket n.derivationMap id = none ∨ bucket n.derivationMap id = some []) →
        (n.deleteStatement id).snd = none ∧
        (n.deleteStatement id).fst.getStatement id = none ∧
        ∀ p ∈ s.derivedFrom, ∀ l,
          bucket (n.deleteStatement id).fst.derivationMap p = some l → id ∉ l) := by
  intro n id
  refine ⟨?_, ?_, ?_⟩
  · intro h
    simp [KnowledgeNetwork.deleteStatement, h]
  · intro s hs d ds hb
    simp [KnowledgeNetwork.deleteStatement, hs, hb]
  · intro s hs hb
    have hres : n.deleteStatement id =
        ({ statements := n.statements.filter (fun t => t.id != id)
           derivationMap :=
             s.derivedFrom.foldl (fun m p => bucketRemove m p id) n.derivationMap },
         none) := by
      rcases hb with hb | hb <;> simp [KnowledgeNetwork.deleteStatement, hs, hb]
    refine ⟨by rw [hres], ?_, ?_⟩
    · rw [hres]
      apply List.find?_eq_none.mpr
      intro t ht
      have := (List.mem_filter.mp ht).2
      simpa using this
    · intro p hp l hl
      rw [hres] at hl
      exact not_mem_bucket_of_entries
        (fold_remove_clears id s.derivedFrom n.derivationMap p (Or.inl hp)) hl

/-- C9 witness: the three branches at the concrete graph net2 (conclusion A
with dependent theory B): deleting an unknown id, deleting A while B depends
on it, and deleting the dependent-free B. -/
theorem c9_delete_statement_behaviour_witness :
    net2.deleteStatement "ZZ" = (net2, some (.notFound "ZZ")) ∧
    net2.deleteStatement "A" = (net2, some (.hasDependents "A")) ∧
    (net2.deleteStatement "B").snd = none ∧
    (net2.deleteStatement "B").fst.getStatement "B" = none :=
  ⟨(c9_delete_statement_behaviour net2 "ZZ").1 (by decide),
   (c9_delete_statement_behaviour net2 "A").2.1 stA (by decide) "B" [] (by decide),
   ((c9_delete_statement_behaviour net2 "B").2.2 stB (by decide) (Or.inl (by decide))).1,
   ((c9_delete_statement_behaviour net2 "B").2.2 stB (by decide) (Or.inl (by decide))).2.1⟩

/-- C10: the graph-level query with only minConfidence set returns exactly
the stored statements whose explicit confidence field is present and at
least the threshold; a statement without explicit confidence is excluded
even when it is an axiom whose confidence would resolve to 1 through the
engine, which only the facade's confidence-range operation consults. -/
theorem c10_query_min_confidence_explicit_only :
    (∀ (n : KnowledgeNetwork) (m : ℚ) (s : Statement),
      s ∈ n.query { minConfidence := some m } ↔
        s ∈ n.statements ∧ ∃ c, s.confidence = some c ∧ m ≤ c) ∧
    netC10.query { minConfidence := some 0 } = [] ∧
    confidenceOf netC10 "Q" = some 1 ∧
    getStatementsByConfidenceRange netC10 0 1 = [stQ] := by
  refine ⟨?_, by decide, by decide, by decide⟩
  intro n m s
  have hq : n.query { minConfidence := some m } =
      n.statements.filter (fun s =>
        match s.confidence with
        | some c => decide (m ≤ c)
        | none => false) := rfl
  rw [hq, List.mem_filter]
  cases h : s.confidence with
  | none => simp [h]
  | some c => simp [h]

/-- The opposite-term scan returns the pair of the firing entry when every
earlier entry fails and the entry fires. -/
theorem scanOpposites_first_fire (s1 s2 : Statement) (c1 c2 : String)
    (w1 w2 : String) (post : List (String × String)) :
    ∀ pre : List (String × String),
      (∀ e ∈ pre, oppFires c1 c2 e = false) →
      oppFires c1 c2 (w1, w2) = true →
      scanOpposites s1 s2 c1 c2 (pre ++ (w1, w2) :: post) =
        some ⟨s1, s2, opposingReason w1 w2, .high⟩ := by
  intro pre
  induction pre with
  | nil =>
    intro _ hfire
    simp [scanOpposites, hfire]
  | cons e rest ih =>
    intro hpre hfire
    have he : oppFires c1 c2 e = false := hpre e (List.mem_cons_self e rest)
    simp only [List.cons_append, scanOpposites, he, Bool.false_eq_true, if_false]
    exact ih (fun e2 h2 => hpre e2 (List.mem_cons_of_mem e h2)) hfire

/-- C6 counterexample: the claim's threshold is not attained inclusively.
The pair "always aaa bbb ccc ddd" / "never aaa bbb ccc ddd eee" satisfies the
claim's hypothesis — the contents contain always/never from one table entry,
and the Jaccard similarity of the stripped remainders is exactly 4/5 = 0.8 —
yet the direct detector (and the whole check) reports nothing. -/
theorem c6_exact_threshold_not_reported :
    ("always", "never") ∈ opposites ∧
    strContains (normalizeContent cx1.content) "always" = true ∧
    strContains (normalizeContent cx2.content) "never" = true ∧
    calculateSimilarity
      (stripBoth (normalizeContent cx1.content) "always" "never")
      (stripBoth (normalizeContent cx2.content) "always" "never") = mkRat 4 5 ∧
    mkRat 4 5 = mkRat 8 10 ∧
    checkDirectContradiction cx1 cx2 = none ∧
    checkForContradiction cx1 cx2 = none := by
  refine ⟨by decide, by decide, by decide, by decide, by decide, by decide, by decide⟩

/-- C6 (amended): for every pair of statements whose normalized contents are
not identical with identical kinds, if a table entry (A, B) fires — one
content contains A and the other contains B (in either assignment) and the
remainders with both words stripped pass areSimilar, i.e. their Jaccard
similarity is strictly greater than 0.8 or they normalize to equal strings —
and every earlier table entry fails, then the direct-opposite detector, and
therefore the whole contradiction check which runs it first, reports the
pair with severity high citing the entry's two words; in particular the
sky always/never fixture is reported with severity high citing
always/never. -/
theorem c6_direct_opposites_strict_threshold :
    (∀ (s1 s2 : Statement) (pre post : List (String × String)) (w1 w2 : String),
      ¬ (normalizeContent s1.content = normalizeContent s2.content ∧ s1.type = s2.type) →
      opposites = pre ++ (w1, w2) :: post →
      (∀ e ∈ pre,
        oppFires (normalizeContent s1.content) (normalizeContent s2.content) e = false) →
      oppFires (normalizeContent s1.content) (normalizeContent s2.content) (w1, w2) = true →
      checkDirectContradiction s1 s2 = some ⟨s1, s2, opposingReason w1 w2, .high⟩ ∧
      checkForContradiction s1 s2 = some ⟨s1, s2, opposingReason w1 w2, .high⟩) ∧
    checkDirectContradiction sky1 sky2 =
      some ⟨sky1, sky2, opposingReason "always" "never", .high⟩ ∧
    checkForContradiction sky1 sky2 =
      some ⟨sky1, sky2, opposingReason "always" "never", .high⟩ := by
  refine ⟨?_, by decide, by decide⟩
  intro s1 s2 pre post w1 w2 h0 htable hpre hfire
  have hcond : (normalizeContent s1.content == normalizeContent s2.content &&
      s1.type == s2.type) = false := by
    by_contra hc
    rw [Bool.not_eq_false, Bool.and_eq_true, beq_iff_eq, beq_iff_eq] at hc
    exact h0 hc
  have hdir : checkDirectContradiction s1 s2 =
      some ⟨s1, s2, opposingReason w1 w2, .high⟩ := by
    unfold checkDirectContradiction
    rw [htable]
    simp only [hcond, Bool.false_eq_true, if_false]
    exact scanOpposites_first_fire s1 s2 _ _ w1 w2 post pre hpre hfire
  refine ⟨hdir, ?_⟩
  unfold checkForContradiction
  rw [hdir]

/-- C6 witness: the amended theorem applied at the sky always/never fixture,
with the entry ("always", "never") sitting after the failing entry
("true", "false") in the table. -/
theorem c6_direct_opposites_strict_threshold_witness :
    checkDirectContradiction sky1 sky2 =
      some ⟨sky1, sky2, opposingReason "always" "never", .high⟩ ∧
    checkForContradiction sky1 sky2 =
      some ⟨sky1, sky2, opposingReason "always" "never", .high⟩ :=
  c6_direct_opposites_strict_threshold.1 sky1 sky2 [("true", "false")]
    [("all", "none"), ("possible", "impossible"), ("necessary", "unnecessary"),
     ("exist", "not exist"), ("exists", "does not exist")]
    "always" "never" (by decide) (by decide) (by decide) (by decide)

/-- find? = some splits the list at the first match. -/
theorem find?_split {α} {p : α → Bool} :
    ∀ {l : List α} {a : α}, l.find? p = some a →
      ∃ pre post, l = pre ++ a :: post ∧ ∀ u ∈ pre, p u = false := by
  intro l
  induction l with
  | nil => intro a h; simp at h
  | cons x xs ih =>
    intro a h
    by_cases hx : p x
    · rw [List.find?_cons_of_pos _ hx] at h
      refine ⟨[], xs, ?_, by simp⟩
      simp at h
      simp [h]
    · rw [List.find?_cons_of_neg _ hx] at h
      obtain ⟨pre, post, heq, hpre⟩ := ih h
      refine ⟨x :: pre, post, by rw [heq]; simp, ?_⟩
      intro u hu
      rcases List.mem_cons.mp hu with rfl | hu2
      · exact Bool.not_eq_true _ ▸ by simpa using hx
      · exact hpre u hu2

/-- A stored-statement lookup splits the statement list at the first id
match. -/
theorem getStatement_split {n : KnowledgeNetwork} {id : String} {t : Statement}
    (h : n.getStatement id = some t) :
    ∃ pre post, n.statements = pre ++ t :: post ∧
      (∀ u ∈ pre, (u.id == id) = false) ∧ t.id = id := by
  obtain ⟨pre, post, heq, hpre⟩ := find?_split h
  refine ⟨pre, post, heq, hpre, ?_⟩
  have := List.find?_some h
  simpa using this

/-- Conversely, a split with no earlier id match determines the lookup. -/
theorem getStatement_of_split {n : KnowledgeNetwork} {id : String} {t : Statement}
    {pre post : List Statement} (hs : n.statements = pre ++ t :: post)
    (hpre : ∀ u ∈ pre, (u.id == id) = false) (ht : t.id = id) :
    n.getStatement id = some t := by
  unfold KnowledgeNetwork.getStatement
  rw [hs, List.find?_append]
  have h1 : pre.find? (fun s => s.id == id) = none :=
    List.find?_eq_none.mpr (fun u hu => by simp [hpre u hu])
  rw [h1, List.find?_cons_of_pos _ (by simp [ht])]
  rfl

/-- Shape of a successful addStatement: the statement is appended, its id was
fresh, and every parent id resolved. -/
theorem addStatement_ok {n : KnowledgeNetwork} {s : Statement} {n2 : KnowledgeNetwork}
    (h : n.addStatement s = (n2, none)) :
    n2.statements = n.statements ++ [s] ∧ n.getStatement s.id = none ∧
    (∀ p ∈ s.derivedFrom, (n.getStatement p).isSome) ∧
    n2.derivationMap =
      s.derivedFrom.foldl (fun m p => bucketAdd m p s.id) n.derivationMap := by
  unfold KnowledgeNetwork.addStatement at h
  by_cases h1 : (n.getStatement s.id).isSome
  · rw [if_pos h1] at h
    simp at h
  · rw [if_neg h1] at h
    cases h2 : firstMissingParent n s.derivedFrom with
    | some p => simp only [h2] at h; simp at h
    | none =>
      simp only [h2] at h
      by_cases h3 : checkCycle n s
      · rw [if_pos h3] at h; simp at h
      · rw [if_neg h3] at h
        injection h with h4 h5
        refine ⟨by rw [← h4], Option.not_isSome_iff_eq_none.mp h1, ?_, by rw [← h4]⟩
        intro p hp
        have h6 := List.find?_eq_none.mp h2 p hp
        cases hpp : n.getStatement p with
        | none => exact absurd (by simp [hpp]) h6
        | some u => simp

/-- Every add-reachable graph stores parents strictly before children. -/
theorem reachable_parentsBefore {n : KnowledgeNetwork} (h : AddReachable n) :
    ParentsBefore n.statements := by
  induction h with
  | empty =>
    intro pre s post habs
    exact absurd habs (by cases pre <;> simp [KnowledgeNetwork.empty])
  | add n s n2 hr hadd ih =>
    obtain ⟨hstmts, _, hparents, _⟩ := addStatement_ok hadd
    intro pre t post hsplit p hp
    rw [hstmts] at hsplit
    rcases post.eq_nil_or_concat with rfl | ⟨post0, y, hy⟩
    · obtain ⟨hpre, ht⟩ := List.append_inj' hsplit (by simp)
      have hts : s = t := by simpa using ht
      have hps := hparents p (by rw [hts]; exact hp)
      obtain ⟨u, hu⟩ := Option.isSome_iff_exists.mp hps
      have hmem := List.mem_of_find?_eq_some hu
      have hid : u.id = p := by
        have := List.find?_some hu
        simpa using this
      exact ⟨u, hpre ▸ hmem, hid⟩
    · rw [hy, List.concat_eq_append] at hsplit
      have h6 : n.statements ++ [s] = (pre ++ t :: post0) ++ [y] := by
        rw [hsplit]; simp
      obtain ⟨h7, _⟩ := List.append_inj' h6 (by simp)
      exact ih pre t post0 h7 p hp

/-- A parent of a stored statement is found at a strictly earlier first
occurrence. -/
theorem parent_rank_lt (n : KnowledgeNetwork) (hPB : ParentsBefore n.statements)
    {pre : List Statement} {t : Statement} {post : List Statement}
    (hsplit : n.statements = pre ++ t :: post)
    {p : String} (hp : p ∈ t.derivedFrom) :
    ∃ pre2 t2 post2, n.statements = pre2 ++ t2 :: post2 ∧
      (∀ u ∈ pre2, (u.id == p) = false) ∧ t2.id = p ∧ pre2.length < pre.length ∧
      n.getStatement p = some t2 := by
  obtain ⟨u, hu, huid⟩ := hPB pre t post hsplit p hp
  have hsome : (n.statements.find? (fun s => s.id == p)).isSome := by
    rw [List.find?_isSome]
    exact ⟨u, by rw [hsplit]; exact List.mem_append_left _ hu, by simp [huid]⟩
  obtain ⟨t2, ht2⟩ := Option.isSome_iff_exists.mp hsome
  obtain ⟨pre2, post2, hsplit2, hpre2, hid2⟩ := getStatement_split (t := t2) ht2
  refine ⟨pre2, t2, post2, hsplit2, hpre2, hid2, ?_, ht2⟩
  obtain ⟨a, b, hab⟩ := List.append_of_mem hu
  by_contra hge
  push_neg at hge
  have hlen : a.length + 1 ≤ pre2.length := by
    have h8 : a.length + 1 ≤ pre.length := by rw [hab]; simp
    omega
  have hpref1 : (a ++ [u]) <+: n.statements := by
    refine ⟨b ++ t :: post, ?_⟩
    rw [hsplit, hab]
    simp
  have hpref2 : pre2 <+: n.statements := ⟨t2 :: post2, hsplit2.symm⟩
  have hsub : (a ++ [u]) <+: pre2 :=
    List.prefix_of_prefix_length_le hpref1 hpref2 (by simpa using hlen)
  have humem : u ∈ pre2 := hsub.subset (by simp)
  have := hpre2 u humem
  simp [huid] at this

/-- One unfolding of calculateConfidence at a found statement. -/
theorem calcConf_succ (n : KnowledgeNetwork) {id : String} {t : Statement}
    (hget : n.getStatement id = some t) (f : Nat) :
    calculateConfidence n (f + 1) id =
      match t.confidence with
      | some c => some c
      | none =>
        if t.type = .axm then some 1
        else if t.derivedFrom.isEmpty then none
        else match t.derivedFrom.filterMap (calculateConfidence n f) with
          | [] => none
          | c :: cs => some (ratMul (cs.foldl min c) (mkRat 19 20)) := by
  simp only [calculateConfidence, hget]

/-- On a topologically stored graph the confidence recursion is independent
of the fuel once the fuel exceeds the first-occurrence position. -/
theorem calcConf_stable (n : KnowledgeNetwork) (hPB : ParentsBefore n.statements) :
    ∀ k : Nat, ∀ (id : String) (pre : List Statement) (t : Statement) (post : List Statement),
      n.statements = pre ++ t :: post →
      (∀ u ∈ pre, (u.id == id) = false) → t.id = id →
      pre.length ≤ k →
      ∀ f g : Nat, pre.length < f → pre.length < g →
      calculateConfidence n f id = calculateConfidence n g id := by
  intro k
  induction k using Nat.strong_induction_on with
  | _ k ih =>
    intro id pre t post hsplit hpre hid hk f g hf hg
    obtain ⟨f2, rfl⟩ : ∃ f2, f = f2 + 1 := ⟨f - 1, by omega⟩
    obtain ⟨g2, rfl⟩ : ∃ g2, g = g2 + 1 := ⟨g - 1, by omega⟩
    have hget : n.getStatement id = some t := getStatement_of_split hsplit hpre hid
    rw [calcConf_succ n hget f2, calcConf_succ n hget g2]
    cases hc : t.confidence with
    | some c => rfl
    | none =>
      by_cases ha : t.type = .axm
      · simp [ha]
      · rw [if_neg ha, if_neg ha]
        by_cases he : t.derivedFrom.isEmpty
        · rw [if_pos he, if_pos he]
        · rw [if_neg he, if_neg he]
          have hcongr : t.derivedFrom.filterMap (calculateConfidence n f2) =
              t.derivedFrom.filterMap (calculateConfidence n g2) := by
            apply List.filterMap_congr
            intro p hp
            obtain ⟨pre2, t2, post2, hs2, hpre2, hid2, hlt, _⟩ :=
              parent_rank_lt n hPB hsplit hp
            exact ih pre2.length (by omega) p pre2 t2 post2 hs2 hpre2 hid2 le_rfl f2 g2
              (by omega) (by omega)
          rw [hcongr]

/-- The engine denotation of calculateConfidence satisfies, on every
topologically stored graph, the recurrence of the specification with the
recursive occurrences at full fuel. -/
theorem confidenceOf_eq (n : KnowledgeNetwork) (hPB : ParentsBefore n.statements)
    {id : String} {t : Statement} (hget : n.getStatement id = some t) :
    confidenceOf n id =
      match t.confidence with
      | some c => some c
      | none =>
        if t.type = .axm then some 1
        else if t.derivedFrom.isEmpty then none
        else match t.derivedFrom.filterMap (confidenceOf n) with
          | [] => none
          | c :: cs => some (ratMul (cs.foldl min c) (mkRat 19 20)) := by
  conv_lhs => rw [show confidenceOf n id =
    calculateConfidence n (n.statements.length + 1) id from rfl]
  rw [calcConf_succ n hget]
  cases hc : t.confidence with
  | some c => rfl
  | none =>
    by_cases ha : t.type = .axm
    · simp [ha]
    · rw [if_neg ha, if_neg ha]
      by_cases he : t.derivedFrom.isEmpty
      · rw [if_pos he, if_pos he]
      · rw [if_neg he, if_neg he]
        have hcongr : t.derivedFrom.filterMap (calculateConfidence n n.statements.length) =
            t.derivedFrom.filterMap (confidenceOf n) := by
          apply List.filterMap_congr
          intro p hp
          obtain ⟨pre, post, hsplit, hpre, hid⟩ := getStatement_split hget
          obtain ⟨pre2, t2, post2, hs2, hpre2, hid2, hlt, _⟩ :=
            parent_rank_lt n hPB hsplit hp
          have hlen : pre2.length < n.statements.length := by
            rw [hs2]; simp
          exact calcConf_stable n hPB pre2.length p pre2 t2 post2 hs2 hpre2 hid2 le_rfl
            n.statements.length (n.statements.length + 1) hlen (by omega)
        rw [hcongr]

/-- One unfolding of getDerivationDepth at a found statement. -/
theorem depth_succ (n : KnowledgeNetwork) {id : String} {t : Statement}
    (hget : n.getStatement id = some t) (f : Nat) :
    getDerivationDepth n (f + 1) id =
      if t.type = .axm ∨ t.derivedFrom = [] then 0
      else match t.derivedFrom.map (getDerivationDepth n f) with
        | [] => 0
        | d :: ds => ds.foldl max d + 1 := by
  simp only [getDerivationDepth, hget]

/-- Fuel independence of the depth recursion on a topologically stored
graph. -/
theorem depth_stable (n : KnowledgeNetwork) (hPB : ParentsBefore n.statements) :
    ∀ k : Nat, ∀ (id : String) (pre : List Statement) (t : Statement) (post : List Statement),
      n.statements = pre ++ t :: post →
      (∀ u ∈ pre, (u.id == id) = false) → t.id = id →
      pre.length ≤ k →
      ∀ f g : Nat, pre.length < f → pre.length < g →
      getDerivationDepth n f id = getDerivationDepth n g id := by
  intro k
  induction k using Nat.strong_induction_on with
  | _ k ih =>
    intro id pre t post hsplit hpre hid hk f g hf hg
    obtain ⟨f2, rfl⟩ : ∃ f2, f = f2 + 1 := ⟨f - 1, by omega⟩
    obtain ⟨g2, rfl⟩ : ∃ g2, g = g2 + 1 := ⟨g - 1, by omega⟩
    have hget : n.getStatement id = some t := getStatement_of_split hsplit hpre hid
    rw [depth_succ n hget f2, depth_succ n hget g2]
    by_cases hcase : t.type = .axm ∨ t.derivedFrom = []
    · rw [if_pos hcase, if_pos hcase]
    · rw [if_neg hcase, if_neg hcase]
      have hcongr : t.derivedFrom.map (getDerivationDepth n f2) =
          t.derivedFrom.map (getDerivationDepth n g2) := by
        apply List.map_congr_left
        intro p hp
        obtain ⟨pre2, t2, post2, hs2, hpre2, hid2, hlt, _⟩ :=
          parent_rank_lt n hPB hsplit hp
        exact ih pre2.length (by omega) p pre2 t2 post2 hs2 hpre2 hid2 le_rfl f2 g2
          (by omega) (by omega)
      rw [hcongr]

/-- The engine denotation of getDerivationDepth satisfies the depth
recurrence of the specification on every topologically stored graph. -/
theorem depthOf_eq (n : KnowledgeNetwork) (hPB : ParentsBefore n.statements)
    {id : String} {t : Statement} (hget : n.getStatement id = some t) :
    depthOf n id =
      if t.type = .axm ∨ t.derivedFrom = [] then 0
      else match t.derivedFrom.map (depthOf n) with
        | [] => 0
        | d :: ds => ds.foldl max d + 1 := by
  conv_lhs => rw [show depthOf n id =
    getDerivationDepth n (n.statements.length + 1) id from rfl]
  rw [depth_succ n hget]
  by_cases hcase : t.type = .axm ∨ t.derivedFrom = []
  · rw [if_pos hcase, if_pos hcase]
  · rw [if_neg hcase, if_neg hcase]
    have hcongr : t.derivedFrom.map (getDerivationDepth n n.statements.length) =
        t.derivedFrom.map (depthOf n) := by
      apply List.map_congr_left
      intro p hp
      obtain ⟨pre, post, hsplit, hpre, hid⟩ := getStatement_split hget
      obtain ⟨pre2, t2, post2, hs2, hpre2, hid2, hlt, _⟩ :=
        parent_rank_lt n hPB hsplit hp
      have hlen : pre2.length < n.statements.length := by
        rw [hs2]; simp
      exact depth_stable n hPB pre2.length p pre2 t2 post2 hs2 hpre2 hid2 le_rfl
        n.statements.length (n.statements.length + 1) hlen (by omega)
    rw [hcongr]

theorem net4_reachable : AddReachable net4 :=
  ((AddReachable.empty.step (by decide)).step (by decide)).step (by decide)

theorem netC10_reachable : AddReachable netC10 :=
  AddReachable.empty.step (by decide)

theorem net7a_reachable : AddReachable net7a :=
  (((AddReachable.empty.step (by decide)).step (by decide)).step (by decide)).step (by decide)

theorem net7b_reachable : AddReachable net7b :=
  (((AddReachable.empty.step (by decide)).step (by decide)).step (by decide)).step (by decide)

/-- C4: on every valid (add-reachable) graph, the resolved confidence of a
stored statement is its explicit confidence when present; otherwise 1 for an
axiom; otherwise undefined when it has no parents or no parent confidence
resolves; otherwise the minimum of the recursively resolved parent
confidences discounted by 0.95.  In particular a theory without explicit
confidence over parents 0.8 and 0.6 resolves to 0.57 = min(0.8, 0.6) ·
0.95. -/
theorem c4_confidence_resolution :
    (∀ (n : KnowledgeNetwork), AddReachable n →
      ∀ (id : String) (t : Statement), n.getStatement id = some t →
        (∀ c, t.confidence = some c → confidenceOf n id = some c) ∧
        (t.confidence = none → t.type = .axm → confidenceOf n id = some 1) ∧
        (t.confidence = none → t.type ≠ .axm → t.derivedFrom = [] →
          confidenceOf n id = none) ∧
        (t.confidence = none → t.type ≠ .axm → t.derivedFrom ≠ [] →
          confidenceOf n id =
            match t.derivedFrom.filterMap (confidenceOf n) with
            | [] => none
            | c :: cs => some (cs.foldl min c * (19 / 20)))) ∧
    confidenceOf net4 "T" = some (mkRat 57 100) ∧
    (mkRat 57 100 : ℚ) = min (4 / 5 : ℚ) (3 / 5) * (19 / 20) := by
  refine ⟨?_, by decide, ?_⟩
  · intro n hr id t hget
    have heq := confidenceOf_eq n (reachable_parentsBefore hr) hget
    refine ⟨?_, ?_, ?_, ?_⟩
    · intro c hc; rw [heq, hc]
    · intro hc ha; rw [heq, hc]; simp [ha]
    · intro hc ha hd; rw [heq, hc]; simp [ha, hd]
    · intro hc ha hd
      rw [heq, hc]
      have h1920 : (mkRat 19 20 : ℚ) = 19 / 20 := by
        rw [Rat.mkRat_eq_div]; norm_num
      rw [if_neg ha, if_neg (by simpa [List.isEmpty_iff] using hd)]
      cases t.derivedFrom.filterMap (confidenceOf n) with
      | nil => rfl
      | cons c cs => simp [ratMul_eq_mul, h1920]
  · have h1 : (mkRat 57 100 : ℚ) = 57 / 100 := by
      rw [Rat.mkRat_eq_div]; norm_num
    rw [h1, min_eq_right (by norm_num : (3 / 5 : ℚ) ≤ 4 / 5)]
    norm_num

/-- C4 witness: the explicit-confidence branch at P1 of the fixture, the
axiom-default branch at the confidence-free axiom Q, and the parentless
branch at the parentless conclusion A. -/
theorem c4_confidence_resolution_witness :
    confidenceOf net4 "P1" = some (mkRat 4 5) ∧
    confidenceOf netC10 "Q" = some 1 ∧
    confidenceOf net2 "A" = none :=
  ⟨(c4_confidence_resolution.1 net4 net4_reachable "P1" stP1 (by decide)).1
      (mkRat 4 5) (by decide),
   (c4_confidence_resolution.1 netC10 netC10_reachable "Q" stQ (by decide)).2.1
      (by decide) (by decide),
   (c4_confidence_resolution.1 net2 net2_reachable "A" stA (by decide)).2.2.1
      (by decide) (by decide) (by decide)⟩

/-- C7: on every valid graph the derivation depth of a stored statement is 0
when it is an axiom or parentless, and otherwise one more than the maximum
of the depths of its parents; the chain axiom → T1 → T2 → T3 reaches depth
3, and the diamond (T3 over both T1 and T2, T2 over T1) takes the maximum
over parents, not the sum. -/
theorem c7_depth_recurrence :
    (∀ (n : KnowledgeNetwork), AddReachable n →
      ∀ (id : String) (t : Statement), n.getStatement id = some t →
        ((t.type = .axm ∨ t.derivedFrom = []) → depthOf n id = 0) ∧
        (t.type ≠ .axm → t.derivedFrom ≠ [] →
          depthOf n id =
            match t.derivedFrom.map (depthOf n) with
            | [] => 0
            | d :: ds => ds.foldl max d + 1)) ∧
    depthOf net7a "T3" = 3 ∧
    depthOf net7b "T3" = 3 ∧
    depthOf net7b "T3" = max (depthOf net7b "T1") (depthOf net7b "T2") + 1 ∧
    depthOf net7b "T1" = 1 ∧ depthOf net7b "T2" = 2 := by
  refine ⟨?_, by decide, by decide, by decide, by decide, by decide⟩
  intro n hr id t hget
  have heq := depthOf_eq n (reachable_parentsBefore hr) hget
  constructor
  · intro hcase; rw [heq, if_pos hcase]
  · intro ha hd
    rw [heq, if_neg (not_or.mpr ⟨ha, hd⟩)]

/-- C7 witness: the zero branch at the axiom A0 (axiom case) and at the
parentless conclusion A (no-parent case). -/
theorem c7_depth_recurrence_witness :
    depthOf net7a "A0" = 0 ∧ depthOf net2 "A" = 0 :=
  ⟨(c7_depth_recurrence.1 net7a net7a_reachable "A0" stA0 (by decide)).1
      (Or.inl (by decide)),
   (c7_depth_recurrence.1 net2 net2_reachable "A" stA (by decide)).1
      (Or.inr (by decide))⟩

/-- Splitting a list at the last occurrence of an element. -/
theorem exists_last_split {α} {a : α} {l : List α} (h : a ∈ l) :
    ∃ A B, l = A ++ a :: B ∧ a ∉ B := by
  induction l with
  | nil => cases h
  | cons x xs ih =>
    by_cases hx : a ∈ xs
    · obtain ⟨A, B, hAB, hB⟩ := ih hx
      exact ⟨x :: A, B, by rw [List.cons_append, hAB], hB⟩
    · have hax : a = x := by
        rcases List.mem_cons.mp h with h1 | h1
        · exact h1
        · exact absurd h1 hx
      exact ⟨[], xs, by rw [hax]; rfl, hx⟩

/-- Extending a neighbour path by one exploration step. -/
theorem nbrPath_extend {n : KnowledgeNetwork} {src v b : String} {p : List String}
    (hp : IsNbrPath n src v p) (hb : b ∈ nbrs n v) :
    IsNbrPath n src b (p ++ [b]) := by
  obtain ⟨hh, hl, hc⟩ := hp
  refine ⟨?_, ?_, ?_⟩
  · rw [List.head?_append, hh]; rfl
  · exact List.getLast?_concat p
  · refine hc.append (List.chain'_singleton b) ?_
    intro x hx y hy
    rw [hl] at hx
    simp at hx hy
    rw [← hx, ← hy]
    exact hb

/-- A constant-valued map is sorted. -/
theorem pairwise_le_map_const {α} (l : List α) (k : Nat) :
    List.Pairwise (fun a b => a ≤ b) (l.map fun _ => k) := by
  induction l with
  | nil => exact List.Pairwise.nil
  | cons x xs ih =>
    rw [List.map_cons, List.pairwise_cons]
    exact ⟨fun b hb => by
      obtain ⟨c, _, hc⟩ := List.mem_map.mp hb
      omega, ih⟩

/-- Marking one unvisited universe vertex shifts its weight out of the
unvisited sum. -/
theorem bfs_sum_split (n : KnowledgeNetwork) :
    ∀ (univ visited : List String) (id : String),
      univ.Nodup → id ∈ univ → id ∉ visited →
      ((univ.filter (fun v => decide (v ∉ visited))).map
        (fun v => 1 + (nbrs n v).length)).sum =
      ((univ.filter (fun v => decide (v ∉ visited ++ [id]))).map
        (fun v => 1 + (nbrs n v).length)).sum + (1 + (nbrs n id).length) := by
  intro univ
  induction univ with
  | nil => intro visited id _ h _; cases h
  | cons x xs ih =>
    intro visited id hnd hmem hnv
    obtain ⟨hx, hxs⟩ := List.nodup_cons.mp hnd
    rcases List.mem_cons.mp hmem with rfl | hmem2
    · rw [List.filter_cons, List.filter_cons,
        if_pos (show (decide (id ∉ visited)) = true by simpa using hnv),
        if_neg (show ¬ (decide (id ∉ visited ++ [id])) = true by simp)]
      have h3 : xs.filter (fun v => decide (v ∉ visited ++ [id])) =
          xs.filter (fun v => decide (v ∉ visited)) := by
        apply List.filter_congr
        intro a ha
        have hax : a ≠ id := fun h => hx (h ▸ ha)
        simp [List.mem_append, hax]
      rw [h3, List.map_cons, List.sum_cons]
      omega
    · have hne : id ≠ x := fun h => hx (h ▸ hmem2)
      have hcond : (decide (x ∉ visited ++ [id])) = (decide (x ∉ visited)) := by
        simp [List.mem_append, hne.symm]
      rw [List.filter_cons, List.filter_cons, hcond]
      by_cases hxv : x ∉ visited
      · rw [if_pos (by simpa using hxv), if_pos (by simpa using hxv)]
        rw [List.map_cons, List.sum_cons, List.map_cons, List.sum_cons,
          ih visited id hxs hmem2 hnv]
        omega
      · rw [if_neg (by simpa using hxv), if_neg (by simpa using hxv)]
        exact ih visited id hxs hmem2 hnv

/-- When a covering path reaches through the vertex being expanded, the last
occurrence of that vertex has an in-path successor reached by one exploration
step, with everything from that successor on free of the vertex. -/
theorem covering_case_split {n : KnowledgeNetwork} {fromId w : String}
    {r1 : List String} {v : String} {r2 : List String} {id : String}
    (hrpath : IsNbrPath n fromId w (r1 ++ v :: r2))
    (hwne : w ≠ id) (hin : id ∈ v :: r2) :
    ∃ A b B2, v :: r2 = A ++ id :: b :: B2 ∧ id ∉ b :: B2 ∧ b ∈ nbrs n id ∧
      b ∈ r2 ∧ ∀ u ∈ B2, u ∈ r2 := by
  obtain ⟨A, B, hAB, hB⟩ := exists_last_split hin
  cases B with
  | nil =>
    exfalso
    have hre : r1 ++ v :: r2 = (r1 ++ A) ++ [id] := by
      rw [hAB]; simp
    have hlast : (r1 ++ v :: r2).getLast? = some id := by
      rw [hre, List.getLast?_concat]
    have hw := hrpath.2.1
    rw [hlast] at hw
    exact hwne (Option.some.inj hw).symm
  | cons b B2 =>
    have hre : r1 ++ v :: r2 = (r1 ++ A) ++ id :: b :: B2 := by
      rw [hAB]; simp
    have hchain := hrpath.2.2
    rw [hre] at hchain
    have hedge : b ∈ nbrs n id := (List.chain'_append_cons_cons.mp hchain).2.1
    have hB2 : id ∉ B2 := fun h => hB (List.mem_cons_of_mem _ h)
    cases A with
    | nil =>
      have h2 : r2 = b :: B2 := by
        have := hAB
        simp at this
        exact this.2
      refine ⟨[], b, B2, hAB, hB, hedge, ?_, ?_⟩
      · rw [h2]; exact List.mem_cons_self _ _
      · intro u hu; rw [h2]; exact List.mem_cons_of_mem _ hu
    | cons a0 A2 =>
      have h2 : r2 = A2 ++ id :: b :: B2 := by
        have := hAB
        rw [List.cons_append] at this
        exact (List.cons.injEq _ _ _ _ ▸ this).2
      refine ⟨a0 :: A2, b, B2, hAB, hB, hedge, ?_, ?_⟩
      · rw [h2]
        exact List.mem_append_right _ (List.mem_cons_of_mem _ (List.mem_cons_self _ _))
      · intro u hu
        rw [h2]
        exact List.mem_append_right _
          (List.mem_cons_of_mem _ (List.mem_cons_of_mem _ hu))

/-- The queue head carries a shortest path among all queued paths. -/
theorem lens_head_min {queue : List (String × List String)} {id : String}
    {path : List String} (hl : LensOK ((id, path) :: queue)) {v : String}
    {p2 : List String} (hmem : (v, p2) ∈ (id, path) :: queue) :
    path.length ≤ p2.length := by
  rcases List.mem_cons.mp hmem with heq | h2
  · rw [show p2 = path from congrArg Prod.snd heq]
  · have hpw := hl.1
    rw [List.map_cons] at hpw
    exact (List.pairwise_cons.mp hpw).1 p2.length
      (List.mem_map.mpr ⟨(v, p2), h2, rfl⟩)

theorem lensOK_tail {e : String × List String} {queue : List (String × List String)}
    (h : LensOK (e :: queue)) : LensOK queue := by
  constructor
  · have := h.1
    rw [List.map_cons] at this
    exact (List.pairwise_cons.mp this).2
  · exact fun a ha b hb =>
      h.2 a (List.mem_cons_of_mem _ ha) b (List.mem_cons_of_mem _ hb)

/-- Popping the head and appending one-step extensions of its path keeps the
queue-length invariant. -/
theorem lensOK_push {id : String} {path : List String}
    {rest : List (String × List String)} (h : LensOK ((id, path) :: rest))
    (nb : List String) :
    LensOK (rest ++ nb.map (fun b => (b, path ++ [b]))) := by
  have hmm : (nb.map (fun b => (b, path ++ [b]))).map (fun e => e.snd.length) =
      nb.map (fun _ => path.length + 1) := by
    rw [List.map_map]
    apply List.map_congr_left
    intro b _
    simp
  constructor
  · rw [List.map_append, List.pairwise_append]
    refine ⟨(lensOK_tail h).1, ?_, ?_⟩
    · rw [hmm]; exact pairwise_le_map_const nb (path.length + 1)
    · intro a ha b hb
      obtain ⟨e, he, rfl⟩ := List.mem_map.mp ha
      rw [hmm] at hb
      obtain ⟨c, _, rfl⟩ := List.mem_map.mp hb
      exact h.2 e (List.mem_cons_of_mem _ he) (id, path) (List.mem_cons_self _ _)
  · intro e he e2 he2
    rcases List.mem_append.mp he with he | he <;>
      rcases List.mem_append.mp he2 with he2 | he2
    · exact h.2 e (List.mem_cons_of_mem _ he) e2 (List.mem_cons_of_mem _ he2)
    · obtain ⟨b, _, rfl⟩ := List.mem_map.mp he2
      have h3 : e.snd.length ≤ path.length + 1 :=
        h.2 e (List.mem_cons_of_mem _ he) (id, path) (List.mem_cons_self _ _)
      simp
      omega
    · obtain ⟨b, _, rfl⟩ := List.mem_map.mp he
      have := lens_head_min h (List.mem_cons_of_mem _ he2)
      simp
      omega
    · obtain ⟨b, _, rfl⟩ := List.mem_map.mp he
      obtain ⟨c, _, rfl⟩ := List.mem_map.mp he2
      simp

/-- Correctness of the BFS queue loop: under the queue invariants it returns
a shortest source-to-target neighbour path, or none exactly when no such
path exists; the fuel only needs to exceed the measure of the state. -/
theorem bfsLoop_correct (n : KnowledgeNetwork) (fromId toId : String)
    (univ : List String) (hnodup : univ.Nodup)
    (hclosed : ∀ v ∈ univ, ∀ b ∈ nbrs n v, b ∈ univ) :
    ∀ fuel : Nat, ∀ visited : List String, ∀ queue : List (String × List String),
      bfsMeasure n univ visited queue.length < fuel →
      (∀ e ∈ queue, e.fst ∈ univ) →
      QueueEntryOK n fromId queue →
      LensOK queue →
      toId ∉ visited →
      Covering n fromId visited queue →
      (∀ p, bfsLoop n toId fuel visited queue = some p →
        IsNbrPath n fromId toId p ∧
        ∀ q, IsNbrPath n fromId toId q → p.length ≤ q.length) ∧
      (bfsLoop n toId fuel visited queue = none → ∀ q, ¬ IsNbrPath n fromId toId q) := by
  intro fuel
  induction fuel with
  | zero =>
    intro visited queue hm
    exact absurd hm (Nat.not_lt_zero _)
  | succ f ih =>
    intro visited queue hm hu hq hl ht hcov
    cases queue with
    | nil =>
      constructor
      · intro p hp
        simp [bfsLoop] at hp
      · intro _ q hq2
        obtain ⟨r1, v, r2, p2, _, _, hmem, _⟩ := hcov toId ht q hq2
        simp at hmem
    | cons e rest =>
      obtain ⟨id, path⟩ := e
      by_cases hid : id = toId
      · have hrun : bfsLoop n toId (f + 1) visited ((id, path) :: rest) = some path := by
          simp [bfsLoop, hid]
        constructor
        · intro p hp
          rw [hrun] at hp
          obtain rfl : path = p := Option.some.inj hp
          have hpath0 : IsNbrPath n fromId id path :=
            hq (id, path) (List.mem_cons_self _ _)
          have hpath : IsNbrPath n fromId toId path := by rwa [hid] at hpath0
          refine ⟨hpath, ?_⟩
          intro q hq2
          obtain ⟨r1, v, r2, p2, hrpath, hrlen, hmem, hp2, hv, hr2⟩ := hcov toId ht q hq2
          have h1 : path.length ≤ p2.length := lens_head_min hl hmem
          have h2 : r1.length + 1 ≤ (r1 ++ v :: r2).length := by
            rw [List.length_append, List.length_cons]
            omega
          omega
        · intro hnone
          rw [hrun] at hnone
          cases hnone
      · have hbeq : (id == toId) = false := beq_eq_false_iff_ne.mpr hid
        by_cases hvis : id ∈ visited
        · have hrun : bfsLoop n toId (f + 1) visited ((id, path) :: rest) =
              bfsLoop n toId f visited rest := by
            simp [bfsLoop, hbeq, hvis]
          rw [hrun]
          apply ih visited rest
          · simp only [bfsMeasure, List.length_cons] at hm ⊢
            omega
          · exact fun e he => hu e (List.mem_cons_of_mem _ he)
          · exact fun e he => hq e (List.mem_cons_of_mem _ he)
          · exact lensOK_tail hl
          · exact ht
          · intro w hw q hq2
            obtain ⟨r1, v, r2, p2, hrpath, hrlen, hmem, hp2, hv, hr2⟩ := hcov w hw q hq2
            refine ⟨r1, v, r2, p2, hrpath, hrlen, ?_, hp2, hv, hr2⟩
            rcases List.mem_cons.mp hmem with heq | h2
            · exact absurd (show v ∈ visited by
                rw [show v = id from congrArg Prod.fst heq]; exact hvis) hv
            · exact h2
        · have hidu : id ∈ univ := hu (id, path) (List.mem_cons_self _ _)
          have hsum := bfs_sum_split n univ visited id hnodup hidu hvis
          have htoid2 : toId ∉ visited ++ [id] := by
            intro hmem2
            rcases List.mem_append.mp hmem2 with h | h
            · exact ht h
            · simp at h
              exact hid h.symm
          cases hstmt : n.getStatement id with
          | none =>
            have hnbrs : nbrs n id = [] := by simp [nbrs, hstmt]
            have hrun : bfsLoop n toId (f + 1) visited ((id, path) :: rest) =
                bfsLoop n toId f (visited ++ [id]) rest := by
              simp [bfsLoop, hbeq, hvis, hstmt]
            rw [hrun]
            apply ih (visited ++ [id]) rest
            · simp only [hnbrs, List.length_nil] at hsum
              simp only [bfsMeasure, List.length_cons] at hm ⊢
              omega
            · exact fun e he => hu e (List.mem_cons_of_mem _ he)
            · exact fun e he => hq e (List.mem_cons_of_mem _ he)
            · exact lensOK_tail hl
            · exact htoid2
            · intro w hw2 q hq2
              have hw : w ∉ visited := fun h => hw2 (List.mem_append_left _ h)
              have hwid : w ≠ id := by
                intro h
                apply hw2
                rw [h]
                exact List.mem_append_right _ (by simp)
              obtain ⟨r1, v, r2, p2, hrpath, hrlen, hmem, hp2, hv, hr2⟩ := hcov w hw q hq2
              have hnotin : id ∉ v :: r2 := by
                intro hin
                obtain ⟨A, b, B2, hAB, hB, hedge, _, _⟩ :=
                  covering_case_split hrpath hwid hin
                rw [hnbrs] at hedge
                cases hedge
              have hvne : v ≠ id := fun h => hnotin (h ▸ List.mem_cons_self _ _)
              refine ⟨r1, v, r2, p2, hrpath, hrlen, ?_, hp2, ?_, ?_⟩
              · rcases List.mem_cons.mp hmem with heq | h2
                · exact absurd (congrArg Prod.fst heq) hvne
                · exact h2
              · intro h
                rcases List.mem_append.mp h with h | h
                · exact hv h
                · simp at h
                  exact hvne h
              · intro u hu2 h
                rcases List.mem_append.mp h with h | h
                · exact hr2 u hu2 h
                · simp at h
                  exact hnotin (h ▸ List.mem_cons_of_mem _ hu2)
          | some s =>
            have hrun : bfsLoop n toId (f + 1) visited ((id, path) :: rest) =
                bfsLoop n toId f (visited ++ [id])
                  (rest ++ (nbrs n id).map (fun b => (b, path ++ [b]))) := by
              simp [bfsLoop, hbeq, hvis, hstmt]
            rw [hrun]
            have hpath0 : IsNbrPath n fromId id path :=
              hq (id, path) (List.mem_cons_self _ _)
            apply ih (visited ++ [id]) (rest ++ (nbrs n id).map (fun b => (b, path ++ [b])))
            · simp only [bfsMeasure, List.length_cons, List.length_append,
                List.length_map] at hm ⊢
              omega
            · intro e he
              rcases List.mem_append.mp he with he | he
              · exact hu e (List.mem_cons_of_mem _ he)
              · obtain ⟨b, hb, rfl⟩ := List.mem_map.mp he
                exact hclosed id hidu b hb
            · intro e he
              rcases List.mem_append.mp he with he | he
              · exact hq e (List.mem_cons_of_mem _ he)
              · obtain ⟨b, hb, rfl⟩ := List.mem_map.mp he
                exact nbrPath_extend hpath0 hb
            · exact lensOK_push hl (nbrs n id)
            · exact htoid2
            · intro w hw2 q hq2
              have hw : w ∉ visited := fun h => hw2 (List.mem_append_left _ h)
              have hwid : w ≠ id := by
                intro h
                apply hw2
                rw [h]
                exact List.mem_append_right _ (by simp)
              obtain ⟨r1, v, r2, p2, hrpath, hrlen, hmem, hp2, hv, hr2⟩ := hcov w hw q hq2
              by_cases hin : id ∈ v :: r2
              · obtain ⟨A, b, B2, hAB, hB, hedge, hbr2, hB2r2⟩ :=
                  covering_case_split hrpath hwid hin
                have hre : r1 ++ v :: r2 = (r1 ++ A ++ [id]) ++ b :: B2 := by
                  rw [hAB]
                  simp
                refine ⟨r1 ++ A ++ [id], b, B2, path ++ [b], ?_, ?_, ?_, ?_, ?_, ?_⟩
                · rw [← hre]
                  exact hrpath
                · rw [← hre]
                  exact hrlen
                · exact List.mem_append_right _ (List.mem_map.mpr ⟨b, hedge, rfl⟩)
                · have h1 : path.length ≤ p2.length := lens_head_min hl hmem
                  simp only [List.length_append, List.length_cons, List.length_nil]
                  omega
                · intro h
                  rcases List.mem_append.mp h with h | h
                  · exact hr2 b hbr2 h
                  · simp at h
                    apply hB
                    rw [← h]
                    exact List.mem_cons_self _ _
                · intro u hu2 h
                  rcases List.mem_append.mp h with h | h
                  · exact hr2 u (hB2r2 u hu2) h
                  · simp at h
                    exact hB (h ▸ List.mem_cons_of_mem _ hu2)
              · have hvne : v ≠ id := fun h => hin (h ▸ List.mem_cons_self _ _)
                refine ⟨r1, v, r2, p2, hrpath, hrlen, ?_, hp2, ?_, ?_⟩
                · rcases List.mem_cons.mp hmem with heq | h2
                  · exact absurd (congrArg Prod.fst heq) hvne
                  · exact List.mem_append_left _ h2
                · intro h
                  rcases List.mem_append.mp h with h | h
                  · exact hv h
                  · simp at h
                    exact hvne h
                · intro u hu2 h
                  rcases List.mem_append.mp h with h | h
                  · exact hr2 u hu2 h
                  · simp at h
                    exact hin (h ▸ List.mem_cons_of_mem _ hu2)

/-- findShortestPath returns a shortest source-to-target neighbour path, or
none exactly when no such path exists. -/
theorem findShortestPath_correct (n : KnowledgeNetwork) (fromId toId : String) :
    (∀ p, findShortestPath n fromId toId = some p →
      IsNbrPath n fromId toId p ∧
      ∀ q, IsNbrPath n fromId toId q → p.length ≤ q.length) ∧
    (findShortestPath n fromId toId = none → ∀ q, ¬ IsNbrPath n fromId toId q) := by
  apply bfsLoop_correct n fromId toId (idUniverse n fromId) (List.nodup_dedup _)
  · intro v _ b hb
    unfold nbrs at hb
    cases hget : n.getStatement v with
    | none => rw [hget] at hb; cases hb
    | some s =>
      rw [hget] at hb
      have hs : s ∈ n.statements := List.mem_of_find?_eq_some hget
      unfold idUniverse
      rw [List.mem_dedup]
      rcases List.mem_append.mp hb with hb | hb
      · exact List.mem_cons_of_mem _ (List.mem_append_right _
          (List.mem_flatten.mpr ⟨s.derivedFrom, List.mem_map.mpr ⟨s, hs, rfl⟩, hb⟩))
      · obtain ⟨t, htd, rfl⟩ := List.mem_map.mp hb
        have htm : t ∈ n.statements := by
          unfold KnowledgeNetwork.getDependents at htd
          cases hbk : bucket n.derivationMap v with
          | none => rw [hbk] at htd; cases htd
          | some ids =>
            rw [hbk] at htd
            obtain ⟨d, _, hd⟩ := List.mem_filterMap.mp htd
            exact List.mem_of_find?_eq_some hd
        exact List.mem_cons_of_mem _ (List.mem_append_left _
          (List.mem_map.mpr ⟨t, htm, rfl⟩))
  · exact Nat.lt_succ_self _
  · intro e he
    simp at he
    rw [he]
    unfold idUniverse
    rw [List.mem_dedup]
    exact List.mem_cons_self _ _
  · intro e he
    simp at he
    rw [he]
    exact ⟨rfl, rfl, List.chain'_singleton fromId⟩
  · constructor
    · simp [List.map_cons]
    · intro e he e2 _
      simp at he
      rw [he]
      simp
  · exact List.not_mem_nil toId
  · intro w hw q hq2
    have hq' : fromId :: q.tail = q := List.cons_head?_tail hq2.1
    refine ⟨[], fromId, q.tail, [fromId], ?_, ?_, by simp, by simp,
      List.not_mem_nil fromId, ?_⟩
    · rw [List.nil_append, hq']
      exact hq2
    · rw [List.nil_append, hq']
    · intro u _
      exact List.not_mem_nil u

/-- Every add-reachable graph has pairwise distinct stored ids. -/
theorem reachable_idsNodup {n : KnowledgeNetwork} (h : AddReachable n) : IdsNodup n := by
  induction h with
  | empty => simp [IdsNodup, KnowledgeNetwork.empty]
  | add n s n2 hr hadd ih =>
    obtain ⟨hstmts, hfresh, _, _⟩ := addStatement_ok hadd
    unfold IdsNodup at ih ⊢
    rw [hstmts, List.map_append]
    have hni : s.id ∉ n.statements.map Statement.id := by
      intro hmem
      obtain ⟨t, ht, hts⟩ := List.mem_map.mp hmem
      have := List.find?_eq_none.mp hfresh t ht
      simp [hts] at this
    rw [List.nodup_append]
    refine ⟨ih, List.nodup_singleton _, ?_⟩
    intro a ha hb
    simp at hb
    rw [hb] at ha
    exact hni ha

/-- With pairwise distinct ids, two stored statements with the same id are
the same statement. -/
theorem mem_id_unique :
    ∀ {l : List Statement}, (l.map Statement.id).Nodup →
      ∀ u ∈ l, ∀ v ∈ l, u.id = v.id → u = v := by
  intro l
  induction l with
  | nil => intro _ u hu; cases hu
  | cons x xs ih =>
    intro hnd u hu v hv hid
    rw [List.map_cons, List.nodup_cons] at hnd
    obtain ⟨hx, hxs⟩ := hnd
    rcases List.mem_cons.mp hu with rfl | hu2 <;> rcases List.mem_cons.mp hv with rfl | hv2
    · rfl
    · exact absurd (by rw [hid]; exact List.mem_map.mpr ⟨v, hv2, rfl⟩) hx
    · exact absurd (by rw [← hid]; exact List.mem_map.mpr ⟨u, hu2, rfl⟩) hx
    · exact ih hxs u hu2 v hv2 hid

/-- With pairwise distinct ids, looking a stored statement up by its own id
finds it. -/
theorem getStatement_of_mem {n : KnowledgeNetwork} (hnd : IdsNodup n) {u : Statement}
    (hu : u ∈ n.statements) : n.getStatement u.id = some u := by
  have hsome : (n.statements.find? (fun s => s.id == u.id)).isSome := by
    rw [List.find?_isSome]
    exact ⟨u, hu, by simp⟩
  obtain ⟨t, ht⟩ := Option.isSome_iff_exists.mp hsome
  have htm := List.mem_of_find?_eq_some ht
  have htid : t.id = u.id := by simpa using List.find?_some ht
  have h2 : t = u := mem_id_unique hnd t htm u hu htid
  rw [h2] at ht
  exact ht

/-- The bucketAdd map step keeps every key. -/
theorem bucketAdd_comp (k p x : String) :
    ((fun e : String × List String => e.fst == p) ∘
      (fun e : String × List String =>
        if e.fst == k then (e.fst, setAdd e.snd x) else e)) =
    fun e : String × List String => e.fst == p := by
  funext e
  by_cases hek : e.fst = k <;> simp [hek]

/-- bucketAdd at one key leaves every other key's bucket unchanged. -/
theorem bucketAdd_get_other {m : List (String × List String)} {k p x : String}
    (h : p ≠ k) : bucket (bucketAdd m k x) p = bucket m p := by
  unfold bucketAdd
  cases hf : m.find? (fun e => e.fst == k) with
  | some e =>
    unfold bucket
    rw [List.find?_map, bucketAdd_comp]
    cases hfp : m.find? (fun e => e.fst == p) with
    | none => rfl
    | some e2 =>
      have hp2 : e2.fst = p := by
        have h3 := List.find?_some hfp
        simpa using h3
      have hnk : ¬ e2.fst = k := by
        rw [hp2]
        exact h
      simp [hnk]
  | none =>
    unfold bucket
    rw [List.find?_append]
    have h2 : ([(k, [x])].find? (fun e => e.fst == p)) = none := by
      simp [beq_eq_false_iff_ne.mpr (Ne.symm h)]
    rw [h2]
    simp

/-- bucketAdd on a missing key creates the singleton bucket. -/
theorem bucketAdd_get_fresh {m : List (String × List String)} {k x : String}
    (h : bucket m k = none) : bucket (bucketAdd m k x) k = some [x] := by
  have hf : m.find? (fun e => e.fst == k) = none := by
    cases hf : m.find? (fun e => e.fst == k) with
    | none => rfl
    | some e => unfold bucket at h; rw [hf] at h; cases h
  unfold bucketAdd
  rw [hf]
  unfold bucket
  rw [List.find?_append, hf]
  simp

/-- bucketAdd on an existing key set-appends the id. -/
theorem bucketAdd_get_found {m : List (String × List String)} {k x : String}
    {l : List String} (h : bucket m k = some l) :
    bucket (bucketAdd m k x) k = some (setAdd l x) := by
  unfold bucket at h
  cases hf : m.find? (fun e => e.fst == k) with
  | none => rw [hf] at h; cases h
  | some e =>
    rw [hf] at h
    have hel : e.snd = l := by simpa using h
    unfold bucketAdd
    rw [hf]
    unfold bucket
    rw [List.find?_map, bucketAdd_comp, hf]
    have hek : e.fst = k := by
      have h3 := List.find?_some hf
      simpa using h3
    simp [hek, hel]

/-- Folding bucketAdd over keys not containing p leaves p's bucket alone. -/
theorem foldAdd_not_mem (x : String) :
    ∀ (qs : List String) (m : List (String × List String)) (p : String), p ∉ qs →
      bucket (qs.foldl (fun m q => bucketAdd m q x) m) p = bucket m p := by
  intro qs
  induction qs with
  | nil => intro m p _; rfl
  | cons q qs ih =>
    intro m p hp
    rw [List.foldl_cons]
    have hpq : p ≠ q := fun h => hp (h ▸ List.mem_cons_self _ _)
    rw [ih _ p (fun h => hp (List.mem_cons_of_mem _ h)), bucketAdd_get_other hpq]

/-- Folding bucketAdd of an id already present in p's bucket changes
nothing at p. -/
theorem foldAdd_already (x : String) :
    ∀ (qs : List String) (m : List (String × List String)) (p : String),
      x ∈ (bucket m p).getD [] →
      bucket (qs.foldl (fun m q => bucketAdd m q x) m) p = bucket m p := by
  intro qs
  induction qs with
  | nil => intro m p _; rfl
  | cons q qs ih =>
    intro m p hx
    rw [List.foldl_cons]
    by_cases hpq : p = q
    · subst hpq
      cases hb : bucket m p with
      | none => rw [hb] at hx; cases hx
      | some l =>
        rw [hb] at hx
        simp at hx
        have h2 := bucketAdd_get_found (x := x) hb
        have h3 : setAdd l x = l := by simp [setAdd, hx]
        rw [ih (bucketAdd m p x) p (by rw [h2, h3]; simpa using hx), h2, h3]
    · have h2 := bucketAdd_get_other (m := m) (x := x) hpq
      rw [ih (bucketAdd m q x) p (by rw [h2]; exact hx), h2]

/-- Folding bucketAdd over a key list appends the fresh id once to every
listed key's bucket. -/
theorem foldAdd_mem (x : String) :
    ∀ (qs : List String) (m : List (String × List String)) (p : String),
      p ∈ qs → x ∉ (bucket m p).getD [] →
      bucket (qs.foldl (fun m q => bucketAdd m q x) m) p =
        some ((bucket m p).getD [] ++ [x]) := by
  intro qs
  induction qs with
  | nil => intro m p h; cases h
  | cons q qs ih =>
    intro m p hp hx
    rw [List.foldl_cons]
    by_cases hpq : p = q
    · subst hpq
      cases hb : bucket m p with
      | none =>
        have h2 := bucketAdd_get_fresh (x := x) hb
        rw [foldAdd_already x qs _ p (by rw [h2]; simp), h2]
        rfl
      | some l =>
        have hxl : x ∉ l := by rw [hb] at hx; simpa using hx
        have h2 := bucketAdd_get_found (x := x) hb
        have h3 : setAdd l x = l ++ [x] := by simp [setAdd, hxl]
        rw [foldAdd_already x qs _ p (by rw [h2, h3]; simp), h2, h3]
        rfl
    · have h2 := bucketAdd_get_other (m := m) (x := x) (k := q) hpq
      have hp2 : p ∈ qs := by
        rcases List.mem_cons.mp hp with h | h
        · exact absurd h hpq
        · exact h
      rw [ih _ p hp2 (by rw [h2]; exact hx), h2]

/-- Every add-reachable graph keeps the reverse-dependents index consistent
with the derivedFrom fields. -/
theorem reachable_indexConsistent {n : KnowledgeNetwork} (h : AddReachable n) :
    IndexConsistent n := by
  induction h with
  | empty => intro p; rfl
  | add n s n2 hr hadd ih =>
    obtain ⟨hstmts, hfresh, _, hdm⟩ := addStatement_ok hadd
    intro p
    have hfresh2 : s.id ∉ (bucket n.derivationMap p).getD [] := by
      rw [ih p]
      intro hmem
      obtain ⟨t, ht, hts⟩ := List.mem_map.mp hmem
      have ht2 : t ∈ n.statements := List.mem_of_mem_filter ht
      have := List.find?_eq_none.mp hfresh t ht2
      simp [hts] at this
    rw [hstmts, hdm, List.filter_append, List.map_append]
    by_cases hp : p ∈ s.derivedFrom
    · rw [foldAdd_mem s.id s.derivedFrom _ p hp hfresh2]
      simp only [Option.getD_some]
      rw [ih p]
      simp [hp]
    · rw [foldAdd_not_mem s.id s.derivedFrom _ p hp, ih p]
      simp [hp]

/-- On a valid graph the exploration step of the BFS is exactly the
undirected view of the derivation edges. -/
theorem nbrs_iff_undirAdj {n : KnowledgeNetwork} (hr : AddReachable n) (a b : String) :
    b ∈ nbrs n a ↔ UndirAdj n a b := by
  have hnd := reachable_idsNodup hr
  have hic := reachable_indexConsistent hr
  constructor
  · intro hb
    unfold nbrs at hb
    cases hget : n.getStatement a with
    | none => rw [hget] at hb; cases hb
    | some s =>
      rw [hget] at hb
      rcases List.mem_append.mp hb with hb | hb
      · exact Or.inl ⟨s, hget, hb⟩
      · obtain ⟨t, htd, rfl⟩ := List.mem_map.mp hb
        right
        unfold KnowledgeNetwork.getDependents at htd
        cases hbk : bucket n.derivationMap a with
        | none => rw [hbk] at htd; cases htd
        | some ids =>
          rw [hbk] at htd
          obtain ⟨d, hd_ids, hd⟩ := List.mem_filterMap.mp htd
          have htm : t ∈ n.statements := List.mem_of_find?_eq_some hd
          have htid : t.id = d := by simpa using List.find?_some hd
          have hd2 : d ∈ (bucket n.derivationMap a).getD [] := by
            rw [hbk]
            simpa using hd_ids
          rw [hic a] at hd2
          obtain ⟨u, hu, huid⟩ := List.mem_map.mp hd2
          have hu2 : u ∈ n.statements := List.mem_of_mem_filter hu
          have hua : a ∈ u.derivedFrom := by simpa using List.of_mem_filter hu
          have hut : u = t := mem_id_unique hnd u hu2 t htm (by rw [huid, htid])
          exact ⟨t, getStatement_of_mem hnd htm, by rw [← hut]; exact hua⟩
  · intro hadj
    rcases hadj with ⟨s, hget, hb⟩ | ⟨s, hget, ha⟩
    · unfold nbrs
      rw [hget]
      exact List.mem_append_left _ hb
    · have hsm : s ∈ n.statements := List.mem_of_find?_eq_some hget
      have hsid : s.id = b := by simpa using List.find?_some hget
      have hPB := reachable_parentsBefore hr
      obtain ⟨pre, post, hsplit⟩ := List.append_of_mem hsm
      obtain ⟨u, hu, huid⟩ := hPB pre s post hsplit a ha
      have hum : u ∈ n.statements := by
        rw [hsplit]
        exact List.mem_append_left _ hu
      have hgeta : n.getStatement a = some u := by
        rw [← huid]
        exact getStatement_of_mem hnd hum
      unfold nbrs
      rw [hgeta]
      apply List.mem_append_right
      have hbmem : b ∈ (bucket n.derivationMap a).getD [] := by
        rw [hic a]
        exact List.mem_map.mpr ⟨s, List.mem_filter.mpr ⟨hsm, by simpa using ha⟩, hsid⟩
      cases hbk : bucket n.derivationMap a with
      | none => rw [hbk] at hbmem; cases hbmem
      | some ids =>
        rw [hbk] at hbmem
        simp at hbmem
        unfold KnowledgeNetwork.getDependents
        rw [hbk]
        apply List.mem_map.mpr
        refine ⟨s, ?_, hsid⟩
        apply List.mem_filterMap.mpr
        refine ⟨b, hbmem, ?_⟩
        rw [← hsid]
        exact getStatement_of_mem hnd hsm

/-- On a valid graph, neighbour paths and undirected derivation paths
coincide. -/
theorem nbrPath_iff_undirPath {n : KnowledgeNetwork} (hr : AddReachable n)
    (src dst : String) (p : List String) :
    IsNbrPath n src dst p ↔ IsUndirPath n src dst p := by
  unfold IsNbrPath IsUndirPath
  constructor <;> rintro ⟨h1, h2, h3⟩ <;> refine ⟨h1, h2, ?_⟩
  · exact h3.imp (fun a b hab => (nbrs_iff_undirAdj hr a b).mp hab)
  · exact h3.imp (fun a b hab => (nbrs_iff_undirAdj hr a b).mpr hab)

theorem net8_reachable : AddReachable net8 :=
  (((AddReachable.empty.step (by decide)).step (by decide)).step (by decide)).step
    (by decide)

/-- C8: on every valid graph findShortestPath runs a BFS over the undirected
view of the derivation edges (each statement adjacent to its parents and its
dependents) and returns an id sequence that is a shortest undirected path
including both endpoints, or none exactly when no such path exists; in the
fixture chain A → B → C with side axiom D → C it returns [A, B, C, D]. -/
theorem c8_shortest_path_bfs :
    (∀ (n : KnowledgeNetwork), AddReachable n → ∀ (fromId toId : String),
      (∀ p, findShortestPath n fromId toId = some p →
        IsUndirPath n fromId toId p ∧
        ∀ q, IsUndirPath n fromId toId q → p.length ≤ q.length) ∧
      (findShortestPath n fromId toId = none →
        ∀ q, ¬ IsUndirPath n fromId toId q)) ∧
    findShortestPath net8 "A" "D" = some ["A", "B", "C", "D"] := by
  refine ⟨?_, by decide⟩
  intro n hr fromId toId
  obtain ⟨hsome, hnone⟩ := findShortestPath_correct n fromId toId
  constructor
  · intro p hp
    obtain ⟨hpath, hmin⟩ := hsome p hp
    refine ⟨(nbrPath_iff_undirPath hr _ _ _).mp hpath, ?_⟩
    intro q hq
    exact hmin q ((nbrPath_iff_undirPath hr _ _ _).mpr hq)
  · intro hn q hq
    exact hnone hn q ((nbrPath_iff_undirPath hr _ _ _).mpr hq)

/-- C8 witness: the returned fixture path is an undirected derivation path
of the fixture graph. -/
theorem c8_shortest_path_bfs_witness :
    IsUndirPath net8 "A" "D" ["A", "B", "C", "D"] :=
  ((c8_shortest_path_bfs.1 net8 net8_reachable "A" "D").1 ["A", "B", "C", "D"]
    (by decide)).1

end KnowNet
